import Mathlib

/-!
# Verification of the A*-based diagnosis ranking engine (`get_diagnosis.py`)

A shallow embedding of the ranking engine of the repository
`Knowledge_Graph_Disease_Diagnosis`.  The engine consumes an undirected
weighted knowledge graph (networkx `Graph`: nodes carry a `group` attribute,
edges a `weight` attribute) plus a list of symptom node identifiers and
returns `(disease, cost)` pairs sorted by cumulative cost.

Modelling choices:
* Python floats are idealised as real numbers; `float('inf')` is `⊤` in
  `WithTop ℝ`.
* The networkx graph is a structure of: the node list (in insertion order,
  as `G.nodes` iterates), the `group` attribute table (`none` = attribute
  absent), the adjacency lists and the symmetric edge-attribute table
  (`none` = the edge has no `weight` key, which `dict.get('weight', 0.0)`
  turns into `0.0`).
* A `KeyError` (an unguarded `G.nodes[node]` on a missing node) is the
  `none` result of an `Option`-valued function.
* `heapq` is modelled as a list from which `heappop` removes a least entry
  under the lexicographic tuple order Python uses for
  `(estimated_total_cost, node, accumulated_cost)` triples; ties in that
  order are only between identical triples, so any least entry is the same.
* The `while` loop runs on explicit fuel; `a_star_search` passes fuel
  exceeding the loop's step bound (proved below: one pop per step, at most
  `len(symptoms) + Σ deg` pushes ever), so the fuel case is never hit.
-/

namespace Diagnosis

/-- A node identifier: a (lowercased) string, as in the pickled graph. -/
abbrev Node := String

/-- The in-memory knowledge graph, as `a_star_search` reads it:
`nodes` is the node list in insertion order, `group` the per-node `group`
attribute (`none` when the attribute is absent), `adj` the adjacency lists
(`G.neighbors`), `weight` the `weight` attribute of an edge (`none` when the
edge carries no such attribute). -/
structure Graph where
  nodes : List Node
  group : Node → Option String
  adj : Node → List Node
  weight : Node → Node → Option ℝ

/-- `edge_weight(G, u, v)`:
`weight = G[u][v].get('weight', 0.0); if weight <= 0: return float('inf');
return -log(weight)`. -/
noncomputable def edge_weight (G : Graph) (u v : Node) : WithTop ℝ :=
  let weight := (G.weight u v).getD 0
  if weight ≤ 0 then ⊤
  else ((-Real.log weight : ℝ) : WithTop ℝ)

/-- `heuristic(node, G)`: `none` models the `KeyError` that the unguarded
`G.nodes[node]` raises when `node` is not in the graph; otherwise 0 for a
disease node, else the minimum of `edge_weight` over the incident edges
(`min(weights)`, a left fold as Python's `min`), and 0 when there are no
incident edges. -/
noncomputable def heuristic (node : Node) (G : Graph) : Option (WithTop ℝ) :=
  if node ∈ G.nodes then
    if G.group node = some "disease" then some 0
    else
      match (G.adj node).map (fun neighbor => edge_weight G node neighbor) with
      | [] => some 0
      | w :: ws => some (ws.foldl min w)
  else none

/-- A priority-queue entry `(estimated_total_cost, node, accumulated_cost)`.
The estimate can be `inf` (e.g. a seed all of whose incident edges are
unusable); the accumulated cost of a pushed entry is always a finite float. -/
structure Entry where
  est : WithTop ℝ
  node : Node
  g : ℝ

theorem Entry.ext_iff' {a b : Entry} :
    a = b ↔ a.est = b.est ∧ a.node = b.node ∧ a.g = b.g := by
  obtain ⟨e, n, g⟩ := a; obtain ⟨e', n', g'⟩ := b; simp

noncomputable instance : DecidableEq Entry := fun a b =>
  decidable_of_iff _ Entry.ext_iff'.symm

/-- Python's tuple comparison on `(est, node, cost)` triples: lexicographic,
falling through on ties.  `heappop` returns a least entry under this order. -/
def entryLe (a b : Entry) : Prop :=
  a.est < b.est ∨ (a.est = b.est ∧
    (a.node < b.node ∨ (a.node = b.node ∧ a.g ≤ b.g)))

noncomputable instance entryLe.decidable (a b : Entry) : Decidable (entryLe a b) := by
  unfold entryLe; infer_instance

theorem entryLe.refl (a : Entry) : entryLe a a := by
  simp [entryLe]

theorem entryLe.trans {a b c : Entry} (hab : entryLe a b) (hbc : entryLe b c) :
    entryLe a c := by
  rcases hab with h | ⟨he, h⟩ <;> rcases hbc with h' | ⟨he', h'⟩
  · exact Or.inl (h.trans h')
  · exact Or.inl (he' ▸ h)
  · exact Or.inl (he ▸ h')
  · refine Or.inr ⟨he.trans he', ?_⟩
    rcases h with h | ⟨hn, h⟩ <;> rcases h' with h' | ⟨hn', h'⟩
    · exact Or.inl (h.trans h')
    · exact Or.inl (hn' ▸ h)
    · exact Or.inl (hn ▸ h')
    · exact Or.inr ⟨hn.trans hn', h.trans h'⟩

theorem entryLe.total (a b : Entry) : entryLe a b ∨ entryLe b a := by
  unfold entryLe
  rcases lt_trichotomy a.est b.est with h | h | h
  · exact Or.inl (Or.inl h)
  · rcases lt_trichotomy a.node b.node with h' | h' | h'
    · exact Or.inl (Or.inr ⟨h, Or.inl h'⟩)
    · rcases le_total a.g b.g with h'' | h''
      · exact Or.inl (Or.inr ⟨h, Or.inr ⟨h', h''⟩⟩)
      · exact Or.inr (Or.inr ⟨h.symm, Or.inr ⟨h'.symm, h''⟩⟩)
    · exact Or.inr (Or.inr ⟨h.symm, Or.inl h'⟩)
  · exact Or.inr (Or.inl h)

theorem entryLe.antisymm {a b : Entry} (hab : entryLe a b) (hba : entryLe b a) :
    a = b := by
  rcases hab with h | ⟨he, h⟩
  · rcases hba with h' | ⟨he', _⟩
    · exact absurd (h.trans h') (lt_irrefl _)
    · exact absurd h (he' ▸ lt_irrefl _)
  · rcases hba with h' | ⟨he', h'⟩
    · exact absurd h' (he ▸ lt_irrefl _)
    · rcases h with h | ⟨hn, h⟩ <;> rcases h' with h'' | ⟨hn', h''⟩
      · exact absurd (h.trans h'') (lt_irrefl _)
      · exact absurd h (hn' ▸ lt_irrefl _)
      · exact absurd h'' (hn ▸ lt_irrefl _)
      · obtain ⟨ea, na, ga⟩ := a
        obtain ⟨eb, nb, gb⟩ := b
        simp only at he hn h h''
        simp [he, hn, le_antisymm h h'']

/-- A least element of `e :: l` under `entryLe` (Python's `heappop` returns
one; since `entryLe` is antisymmetric all least elements are the same
triple). -/
noncomputable def findMin (e : Entry) (l : List Entry) : Entry :=
  l.foldl (fun a b => if entryLe a b then a else b) e

/-- `heappop`: remove and return a least entry of a non-empty queue. -/
noncomputable def popMin : List Entry → Option (Entry × List Entry)
  | [] => none
  | e :: l => some (findMin e l, (e :: l).erase (findMin e l))

theorem findMin_cons (e x : Entry) (l : List Entry) :
    findMin e (x :: l) = findMin (if entryLe e x then e else x) l := rfl

theorem findMin_mem (e : Entry) (l : List Entry) : findMin e l ∈ e :: l := by
  induction l generalizing e with
  | nil => simp [findMin]
  | cons x l ih =>
    rw [findMin_cons]
    rcases List.mem_cons.mp (ih (if entryLe e x then e else x)) with h | h
    · rw [h]
      split <;> simp
    · simp [h]

theorem findMin_le (e : Entry) (l : List Entry) :
    ∀ x ∈ e :: l, entryLe (findMin e l) x := by
  induction l generalizing e with
  | nil => simpa [findMin] using entryLe.refl e
  | cons y l ih =>
    intro x hx
    rw [findMin_cons]
    have hpe : entryLe (if entryLe e y then e else y) e := by
      split
      · exact entryLe.refl e
      · exact (entryLe.total e y).resolve_left (by assumption)
    have hpy : entryLe (if entryLe e y then e else y) y := by
      split
      · assumption
      · exact entryLe.refl y
    have hhead := ih (if entryLe e y then e else y) _ (List.mem_cons_self _ _)
    rcases List.mem_cons.mp hx with rfl | hx
    · exact hhead.trans hpe
    · rcases List.mem_cons.mp hx with rfl | hx
      · exact hhead.trans hpy
      · exact ih _ x (List.mem_cons_of_mem _ hx)

theorem popMin_nil : popMin [] = none := rfl

theorem popMin_eq_none {q : List Entry} : popMin q = none ↔ q = [] := by
  cases q <;> simp [popMin]

/-- `heappop` pops a least entry; the rest is the queue with one copy of it
removed. -/
theorem popMin_spec {q : List Entry} {e : Entry} {rest : List Entry}
    (h : popMin q = some (e, rest)) :
    e ∈ q ∧ q.Perm (e :: rest) ∧ (∀ x ∈ q, entryLe e x) ∧
      rest = q.erase e := by
  match q with
  | [] => simp [popMin] at h
  | a :: l =>
    simp only [popMin, Option.some.injEq, Prod.mk.injEq] at h
    obtain ⟨rfl, rfl⟩ := h
    exact ⟨findMin_mem a l, List.perm_cons_erase (findMin_mem a l),
      findMin_le a l, rfl⟩

/-- The accumulated-cost table: `costs[n]`, `none` when `n not in costs`. -/
def Costs := Node → Option ℝ

/-- `costs[n] = c` (Python dict assignment). -/
noncomputable def setCost (costs : Costs) (n : Node) (c : ℝ) : Costs :=
  fun m => if m = n then some c else costs m

/-- `neighbor not in costs or neighbor_cost < costs[neighbor]`. -/
def improves (c : ℝ) : Option ℝ → Prop
  | none => True
  | some old => c < old

noncomputable instance improves.decidable (c : ℝ) :
    ∀ o : Option ℝ, Decidable (improves c o)
  | none => .isTrue trivial
  | some old => inferInstanceAs (Decidable (c < old))

/-- The `for neighbor in G.neighbors(current_node)` body of `a_star_search`:
skip visited neighbors, skip infinite-cost edges, and on a strict
improvement record the new cost and push
`(neighbor_cost + heuristic(neighbor), neighbor, neighbor_cost)`.
`none` models the `KeyError` raised by `heuristic` on a node missing from
the graph. -/
noncomputable def relaxNbrs (G : Graph) (node : Node) (g : ℝ) :
    List Node → List Entry → Costs → List Node →
    Option (List Entry × Costs)
  | [], queue, costs, _ => some (queue, costs)
  | neighbor :: rest, queue, costs, visited =>
    if neighbor ∈ visited then relaxNbrs G node g rest queue costs visited
    else
      match edge_weight G node neighbor with
      | ⊤ => relaxNbrs G node g rest queue costs visited
      | (cost : ℝ) =>
        let neighbor_cost := g + cost
        if improves neighbor_cost (costs neighbor) then
          match heuristic neighbor G with
          | none => none
          | some h =>
            relaxNbrs G node g rest
              (queue ++ [⟨(neighbor_cost : ℝ) + h, neighbor, neighbor_cost⟩])
              (setCost costs neighbor neighbor_cost) visited
        else
          relaxNbrs G node g rest queue costs visited

/-- The `while queue:` loop of `a_star_search`, on explicit fuel (the fuel
passed by `a_star_search` is proved below to outlast the loop).  `none`
models a `KeyError` (a popped node or a relaxed neighbor missing from the
graph's node table). -/
noncomputable def aStarLoop (G : Graph) :
    Nat → List Entry → Costs → List Node → Option Costs
  | 0, _, costs, _ => some costs
  | fuel + 1, queue, costs, visited =>
    match popMin queue with
    | none => some costs
    | some (e, rest) =>
      if e.node ∈ visited then aStarLoop G fuel rest costs visited
      else
        if e.node ∈ G.nodes then
          if G.group e.node = some "disease" then
            aStarLoop G fuel rest (setCost costs e.node e.g) (e.node :: visited)
          else
            match relaxNbrs G e.node e.g (G.adj e.node) rest costs
                (e.node :: visited) with
            | none => none
            | some (queue', costs') =>
              aStarLoop G fuel queue' costs' (e.node :: visited)
        else none

/-- The seeding loop: `for symptom in symptoms: heappush(queue,
(heuristic(symptom, G), symptom, 0)); costs[symptom] = 0`.  `none` models
the `KeyError` `heuristic` raises on a symptom missing from the graph. -/
noncomputable def seedQueue (G : Graph) :
    List Node → List Entry → Costs → Option (List Entry × Costs)
  | [], queue, costs => some (queue, costs)
  | symptom :: rest, queue, costs =>
    match heuristic symptom G with
    | none => none
    | some h =>
      seedQueue G rest (queue ++ [⟨h, symptom, 0⟩]) (setCost costs symptom 0)

/-- `disease_scores`: the `(node, costs[node])` pairs over `G.nodes(data=True)`
in node-insertion order, keeping the nodes whose `group` is `'disease'` and
that appear in `costs`. -/
def diseaseScores (G : Graph) (costs : Costs) : List (Node × ℝ) :=
  G.nodes.filterMap fun node =>
    if G.group node = some "disease" then
      (costs node).map fun c => (node, c)
    else none

/-- Fuel that outlasts the loop: one entry is popped per iteration and at
most `len(symptoms) + Σ_v deg(v)` entries are ever pushed. -/
def searchFuel (G : Graph) (symptoms : List Node) : Nat :=
  symptoms.length + (G.nodes.map fun v => (G.adj v).length).sum + 1

/-- `a_star_search(G, symptoms)`: seed the queue with all symptoms, run the
loop, collect the disease scores and sort them by cumulative cost ascending
(`sorted` is stable, modelled by `mergeSort`).  `none` models an uncaught
`KeyError`. -/
noncomputable def a_star_search (G : Graph) (symptoms : List Node) :
    Option (List (Node × ℝ)) :=
  match seedQueue G symptoms [] (fun _ => none) with
  | none => none
  | some (queue, costs) =>
    match aStarLoop G (searchFuel G symptoms) queue costs [] with
    | none => none
    | some final =>
      some ((diseaseScores G final).mergeSort fun a b => decide (a.2 ≤ b.2))

/-! ## Paths and their costs -/

/-- A usable (finite-cost) edge step: `v` is adjacent to `u` and the edge is
not skipped by the `cost == float('inf')` test. -/
def finStep (G : Graph) (u v : Node) : Prop :=
  v ∈ G.adj u ∧ edge_weight G u v ≠ ⊤

/-- A bare adjacency step, whatever the edge's weight. -/
def adjStep (G : Graph) (u v : Node) : Prop := v ∈ G.adj u

/-- The per-edge cost `-ln(weight)` as a real (meaningful on usable edges). -/
noncomputable def realCost (G : Graph) (u v : Node) : ℝ :=
  -Real.log ((G.weight u v).getD 0)

/-- Sum of per-edge costs along a node list. -/
noncomputable def pathCost (G : Graph) : List Node → ℝ
  | u :: v :: rest => realCost G u v + pathCost G (v :: rest)
  | _ => 0

/-- A path of usable edges from some symptom of the seed list to `d`. -/
def IsSeedPath (G : Graph) (symptoms : List Node) (p : List Node) (d : Node) :
    Prop :=
  p.Chain' (finStep G) ∧ (∃ s ∈ symptoms, p.head? = some s) ∧
    p.getLast? = some d

/-- A seed path that moreover never leaves a disease node: every node except
the final one is not tagged `'disease'` (the search stops relaxing outward
from diseases, so these are the paths it can follow). -/
def IsSinkPath (G : Graph) (symptoms : List Node) (p : List Node) (d : Node) :
    Prop :=
  IsSeedPath G symptoms p d ∧
    ∀ n ∈ p.dropLast, G.group n ≠ some "disease"

/-- A bare adjacency path from some symptom of the seed list to `d`. -/
def IsAdjPath (G : Graph) (symptoms : List Node) (p : List Node) (d : Node) :
    Prop :=
  p.Chain' (adjStep G) ∧ (∃ s ∈ symptoms, p.head? = some s) ∧
    p.getLast? = some d

/-- An edge is unusable exactly when its stored weight is `≤ 0` or absent
(the absent attribute defaults to `0.0`). -/
theorem edge_weight_eq_top_iff (G : Graph) (u v : Node) :
    edge_weight G u v = ⊤ ↔ (G.weight u v).getD 0 ≤ 0 := by
  unfold edge_weight
  by_cases h : (G.weight u v).getD 0 ≤ 0
  · simp [h]
  · simp [h]

/-- On a usable edge, `edge_weight` is the (finite) real cost `-ln w`. -/
theorem edge_weight_of_ne_top {G : Graph} {u v : Node}
    (h : edge_weight G u v ≠ ⊤) :
    edge_weight G u v = ((realCost G u v : ℝ) : WithTop ℝ) := by
  unfold edge_weight at h ⊢
  unfold realCost
  by_cases h0 : (G.weight u v).getD 0 ≤ 0
  · simp [h0] at h
  · simp [h0]

/-- Usable edges have positive weight, so their real cost is `-ln w` with
`w > 0`. -/
theorem finStep_weight_pos {G : Graph} {u v : Node} (h : finStep G u v) :
    0 < (G.weight u v).getD 0 := by
  have := h.2
  rw [Ne, edge_weight_eq_top_iff] at this
  linarith [not_le.mp this]

/-! ## Helper: Python's `min` over a non-empty list as a left fold -/

theorem foldl_min_mem {α : Type} [LinearOrder α] (w : α) (ws : List α) :
    ws.foldl min w ∈ w :: ws := by
  induction ws generalizing w with
  | nil => simp
  | cons x ws ih =>
    rw [List.foldl_cons]
    rcases List.mem_cons.mp (ih (min w x)) with h | h
    · rw [h]
      rcases min_choice w x with h' | h' <;> simp [h']
    · simp [h]

theorem foldl_min_le {α : Type} [LinearOrder α] (w : α) (ws : List α) :
    ∀ x ∈ w :: ws, ws.foldl min w ≤ x := by
  induction ws generalizing w with
  | nil => simp
  | cons y ws ih =>
    intro x hx
    rw [List.foldl_cons]
    have hhead := ih (min w y) _ (List.mem_cons_self _ _)
    rcases List.mem_cons.mp hx with rfl | hx
    · exact hhead.trans (min_le_left _ _)
    · rcases List.mem_cons.mp hx with rfl | hx
      · exact hhead.trans (min_le_right _ _)
      · exact ih _ x (List.mem_cons_of_mem _ hx)

/-! ## C3: the edge-cost transform -/

/-- C3: for every graph and edge slot `(u,v)`, `edge_weight` returns
`-ln(w)` when the stored weight `w` is positive, `+infinity` when `w ≤ 0`,
and `+infinity` when the weight attribute is absent (it defaults to `0`). -/
theorem C3_edge_weight_contract (G : Graph) (u v : Node) :
    (∀ w : ℝ, G.weight u v = some w → 0 < w →
        edge_weight G u v = ((-Real.log w : ℝ) : WithTop ℝ)) ∧
      (∀ w : ℝ, G.weight u v = some w → w ≤ 0 → edge_weight G u v = ⊤) ∧
      (G.weight u v = none → edge_weight G u v = ⊤) := by
  refine ⟨fun w hw hpos => ?_, fun w hw hnonpos => ?_, fun hw => ?_⟩
  · unfold edge_weight
    rw [hw]
    simp [not_le.mpr hpos]
  · rw [edge_weight_eq_top_iff, hw]
    simpa using hnonpos
  · rw [edge_weight_eq_top_iff, hw]
    simp

/-! ## C4: the heuristic estimator -/

/-- C4: on a node of the graph, `heuristic` returns `0` for a disease node;
for a non-disease node with incident edges it returns the minimum of
`edge_weight` over the incident edges; for a non-disease node with no
incident edges it returns `0`. -/
theorem C4_heuristic_contract (G : Graph) (node : Node)
    (hmem : node ∈ G.nodes) :
    (G.group node = some "disease" → heuristic node G = some 0) ∧
      (G.group node ≠ some "disease" → G.adj node = [] →
        heuristic node G = some 0) ∧
      (G.group node ≠ some "disease" → G.adj node ≠ [] →
        ∃ m, heuristic node G = some m ∧
          (∃ v ∈ G.adj node, edge_weight G node v = m) ∧
          ∀ v ∈ G.adj node, m ≤ edge_weight G node v) := by
  refine ⟨fun hd => ?_, fun hd hadj => ?_, fun hd hadj => ?_⟩
  · simp [heuristic, hmem, hd]
  · simp [heuristic, hmem, hd, hadj]
  · unfold heuristic
    rw [if_pos hmem, if_neg hd]
    match hA : G.adj node, hm : (G.adj node).map
        (fun neighbor => edge_weight G node neighbor) with
    | [], _ => exact absurd hA hadj
    | a :: l, [] => simp [hA] at hm
    | a :: l, w :: ws =>
      refine ⟨ws.foldl min w, rfl, ?_, ?_⟩
      · have : ws.foldl min w ∈ w :: ws := foldl_min_mem w ws
        rw [← hm] at this
        obtain ⟨v, hv, hvw⟩ := List.mem_map.mp this
        exact ⟨v, hA ▸ hv, hvw⟩
      · intro v hv
        refine foldl_min_le w ws _ ?_
        rw [← hm]
        exact List.mem_map.mpr ⟨v, hA ▸ hv, rfl⟩

/-! ## C8: the empty seed set -/

/-- C8: with an empty symptom list, `a_star_search` returns the empty
ranking and raises nothing: the queue starts empty, the loop never runs,
and no disease has a recorded cost. -/
theorem C8_empty_seed (G : Graph) : a_star_search G [] = some [] := by
  have hloop : aStarLoop G (searchFuel G []) [] (fun _ => none) [] =
      some (fun _ => none) := by
    unfold searchFuel
    simp only [List.length_nil, Nat.zero_add]
    rw [aStarLoop]
    simp [popMin_nil]
  have hscores : diseaseScores G (fun _ => none) = [] := by
    unfold diseaseScores
    simp
  unfold a_star_search seedQueue
  simp only [hloop, hscores]
  simp

/-! ## C9: a seed missing from the graph raises `KeyError` -/

theorem seedQueue_missing {G : Graph} {symptoms : List Node}
    (h : ∃ s ∈ symptoms, s ∉ G.nodes) :
    ∀ queue costs, seedQueue G symptoms queue costs = none := by
  induction symptoms with
  | nil => simp at h
  | cons a rest ih =>
    intro queue costs
    obtain ⟨s, hs, hmiss⟩ := h
    rcases List.mem_cons.mp hs with rfl | hs
    · unfold seedQueue heuristic
      rw [if_neg hmiss]
    · unfold seedQueue
      match hh : heuristic a G with
      | none => rfl
      | some h' => exact ih ⟨s, hs, hmiss⟩ _ _

/-- C9: if any symptom identifier in the seed list is not a node of the
graph, `a_star_search` dies with a `KeyError` during seeding (`heuristic`
indexes `G.nodes[...]` unguarded) instead of skipping it: the model returns
`none`. -/
theorem C9_missing_seed_raises (G : Graph) (symptoms : List Node)
    (h : ∃ s ∈ symptoms, s ∉ G.nodes) :
    a_star_search G symptoms = none := by
  unfold a_star_search
  rw [seedQueue_missing h]

/-! ## C2: a finalized disease is never expanded -/

/-- C2: in any iteration of the search loop, when the popped entry's node is
an unvisited disease node, the loop records that entry's accumulated cost
for the node and continues with exactly the remaining queue: no incident
edge is relaxed outward from the disease, nothing is pushed, and no other
cost changes. -/
theorem C2_disease_pop_absorbs (G : Graph) (fuel : Nat) (queue rest : List Entry)
    (costs : Costs) (visited : List Node) (e : Entry)
    (hpop : popMin queue = some (e, rest))
    (hnv : e.node ∉ visited) (hmem : e.node ∈ G.nodes)
    (hdis : G.group e.node = some "disease") :
    aStarLoop G (fuel + 1) queue costs visited =
      aStarLoop G fuel rest (setCost costs e.node e.g) (e.node :: visited) := by
  rw [aStarLoop, hpop]
  simp only [if_neg hnv, if_pos hmem, if_pos hdis]

/-! ## Concrete graphs for witnesses -/

/-- A two-node graph whose single edge `s — d` stores weight `0`: the edge
is unusable, so the disease `d` is unreachable. -/
def Gb : Graph where
  nodes := ["s", "d"]
  group n := if n = "s" then some "symptom"
    else if n = "d" then some "disease" else none
  adj n := if n = "s" then ["d"] else if n = "d" then ["s"] else []
  weight u v :=
    if (u = "s" ∧ v = "d") ∨ (u = "d" ∧ v = "s") then some 0 else none

theorem Gb_nodes : Gb.nodes = ["s", "d"] := rfl

theorem Gb_edge_weight_top (u v : Node) : edge_weight Gb u v = ⊤ := by
  rw [edge_weight_eq_top_iff]
  show ((if (u = "s" ∧ v = "d") ∨ (u = "d" ∧ v = "s") then some (0:ℝ)
    else none).getD 0) ≤ 0
  split <;> simp

/-- C2's witness state: the singleton queue holding the disease entry. -/
theorem C2_witness :
    popMin [Entry.mk 0 "d" 0] = some (Entry.mk 0 "d" 0, []) ∧
      aStarLoop Gb 1 [Entry.mk 0 "d" 0] (fun _ => none) [] =
        aStarLoop Gb 0 [] (setCost (fun _ => none) "d" 0) ["d"] := by
  have hpop : popMin [Entry.mk 0 "d" 0] = some (Entry.mk 0 "d" 0, []) := by
    unfold popMin findMin
    simp [List.erase_cons_head]
  refine ⟨hpop, ?_⟩
  exact C2_disease_pop_absorbs Gb 0 _ _ _ _ _ hpop (by simp) (by simp [Gb])
    (by simp [Gb])

/-- C4's witness: the symptom node of `Gb`. -/
theorem C4_witness :
    "s" ∈ Gb.nodes ∧
      (Gb.group "s" = some "disease" → heuristic "s" Gb = some 0) ∧
      (Gb.group "s" ≠ some "disease" → Gb.adj "s" = [] →
        heuristic "s" Gb = some 0) ∧
      (Gb.group "s" ≠ some "disease" → Gb.adj "s" ≠ [] →
        ∃ m, heuristic "s" Gb = some m ∧
          (∃ v ∈ Gb.adj "s", edge_weight Gb "s" v = m) ∧
          ∀ v ∈ Gb.adj "s", m ≤ edge_weight Gb "s" v) :=
  ⟨by simp [Gb], C4_heuristic_contract Gb "s" (by simp [Gb])⟩

/-- C9's witness: a symptom identifier absent from `Gb`. -/
theorem C9_witness :
    (∃ s ∈ ["zzz"], s ∉ Gb.nodes) ∧ a_star_search Gb ["zzz"] = none :=
  ⟨⟨"zzz", by simp, by simp [Gb]⟩,
    C9_missing_seed_raises Gb ["zzz"] ⟨"zzz", by simp, by simp [Gb]⟩⟩

/-! ## Path cost arithmetic -/

theorem pathCost_nil (G : Graph) : pathCost G [] = 0 := rfl

theorem pathCost_single (G : Graph) (u : Node) : pathCost G [u] = 0 := rfl

theorem pathCost_cons_cons (G : Graph) (u v : Node) (rest : List Node) :
    pathCost G (u :: v :: rest) = realCost G u v + pathCost G (v :: rest) :=
  rfl

theorem pathCost_concat (G : Graph) (m u : Node) :
    ∀ p : List Node, p.getLast? = some u →
      pathCost G (p ++ [m]) = pathCost G p + realCost G u m
  | [], h => by simp at h
  | [w], h => by
    obtain rfl : w = u := by simpa using h
    simp [pathCost_cons_cons, pathCost_nil, pathCost_single]
  | w :: v :: rest, h => by
    have h' : (v :: rest).getLast? = some u := by
      rwa [List.getLast?_cons_cons] at h
    have ih := pathCost_concat G m u (v :: rest) h'
    simp only [List.cons_append] at ih ⊢
    rw [pathCost_cons_cons, pathCost_cons_cons, ih]
    ring

/-- Every consecutive pair of a `Chain'` satisfies the step relation. -/
theorem chain'_consec {R : Node → Node → Prop} :
    ∀ {p : List Node}, p.Chain' R →
      ∀ uv ∈ p.zip p.tail, R uv.1 uv.2
  | [], _, uv, h => by simp at h
  | [_], _, uv, h => by simp at h
  | u :: v :: rest, hc, uv, h => by
    rw [List.chain'_cons] at hc
    rcases List.mem_cons.mp (by simpa using h) with rfl | h'
    · exact hc.1
    · exact chain'_consec hc.2 uv h'

/-- Extending a sink path by one usable edge out of a non-disease endpoint. -/
theorem IsSinkPath.extend {G : Graph} {symptoms p : List Node} {u m : Node}
    (hp : IsSinkPath G symptoms p u) (hnd : G.group u ≠ some "disease")
    (hstep : finStep G u m) :
    IsSinkPath G symptoms (p ++ [m]) m ∧
      pathCost G (p ++ [m]) = pathCost G p + realCost G u m := by
  obtain ⟨⟨hchain, ⟨s, hs, hhead⟩, hlast⟩, hdrop⟩ := hp
  have hne : p ≠ [] := by
    intro h
    rw [h] at hhead
    simp at hhead
  have hu : p.getLast hne = u := by
    rwa [List.getLast?_eq_getLast _ hne, Option.some.injEq] at hlast
  refine ⟨⟨⟨?_, ⟨s, hs, ?_⟩, ?_⟩, ?_⟩, ?_⟩
  · rw [List.chain'_append]
    refine ⟨hchain, List.chain'_singleton m, fun x hx y hy => ?_⟩
    rw [hlast, Option.mem_def, Option.some.injEq] at hx
    simp only [List.head?_cons, Option.mem_def, Option.some.injEq] at hy
    rw [← hx, ← hy]
    exact hstep
  · rwa [List.head?_append_of_ne_nil _ hne]
  · exact List.getLast?_concat p
  · intro n hn
    rw [List.dropLast_concat] at hn
    rcases List.mem_append.mp
        ((List.dropLast_append_getLast hne ▸ hn : n ∈ _)) with h | h
    · exact hdrop n h
    · rw [List.mem_singleton.mp h, hu]
      exact hnd
  · exact pathCost_concat G m u p hlast

/-- The single-node path at a seed symptom. -/
theorem IsSinkPath.seed {G : Graph} {symptoms : List Node} {s : Node}
    (hs : s ∈ symptoms) : IsSinkPath G symptoms [s] s ∧ pathCost G [s] = 0 :=
  ⟨⟨⟨List.chain'_singleton s, ⟨s, hs, rfl⟩, rfl⟩, by simp⟩, rfl⟩

/-! ## The soundness invariant: every recorded cost is realized by a path -/

/-- Every queue entry and every recorded cost is realized by a usable-edge
path from a seed symptom that never leaves a disease node. -/
structure SInv (G : Graph) (symptoms : List Node) (queue : List Entry)
    (costs : Costs) : Prop where
  queue_path : ∀ e ∈ queue,
    ∃ p, IsSinkPath G symptoms p e.node ∧ pathCost G p = e.g
  costs_path : ∀ n c, costs n = some c →
    ∃ p, IsSinkPath G symptoms p n ∧ pathCost G p = c

theorem SInv.sub {G : Graph} {symptoms : List Node}
    {queue queue' : List Entry} {costs : Costs}
    (h : SInv G symptoms queue costs) (hsub : ∀ e ∈ queue', e ∈ queue) :
    SInv G symptoms queue' costs :=
  ⟨fun e he => h.queue_path e (hsub e he), h.costs_path⟩

theorem SInv.relax {G : Graph} {symptoms : List Node} {node : Node} {g : ℝ}
    {p₀ : List Node}
    (hp₀ : IsSinkPath G symptoms p₀ node) (hc₀ : pathCost G p₀ = g)
    (hnd : G.group node ≠ some "disease") :
    ∀ (ns : List Node) (queue : List Entry) (costs : Costs)
      (visited : List Node) (queue' : List Entry) (costs' : Costs),
      (∀ x ∈ ns, x ∈ G.adj node) →
      SInv G symptoms queue costs →
      relaxNbrs G node g ns queue costs visited = some (queue', costs') →
      SInv G symptoms queue' costs'
  | [], queue, costs, visited, queue', costs', _, hinv, hrun => by
    rw [relaxNbrs, Option.some.injEq] at hrun
    obtain ⟨rfl, rfl⟩ := Prod.mk.injEq _ _ _ _ ▸ hrun
    exact hinv
  | neighbor :: rest, queue, costs, visited, queue', costs', hsub, hinv,
      hrun => by
    have hsub' : ∀ x ∈ rest, x ∈ G.adj node :=
      fun x hx => hsub x (List.mem_cons_of_mem _ hx)
    rw [relaxNbrs] at hrun
    split at hrun
    · exact SInv.relax hp₀ hc₀ hnd rest queue costs visited queue' costs'
        hsub' hinv hrun
    · split at hrun
      · exact SInv.relax hp₀ hc₀ hnd rest queue costs visited queue' costs'
          hsub' hinv hrun
      · rename_i hv cost hew
        simp only at hrun
        split at hrun
        · split at hrun
          · exact absurd hrun (by simp)
          · rename_i himp h hh
            have hfin : finStep G node neighbor :=
              ⟨hsub neighbor (List.mem_cons_self _ _), by simp [hew]⟩
            have hrc : realCost G node neighbor = cost := by
              have h1 := edge_weight_of_ne_top (G := G) (u := node)
                (v := neighbor) (by simp [hew])
              rw [hew] at h1
              have h2 : ((cost : ℝ) : WithTop ℝ) =
                  ((realCost G node neighbor : ℝ) : WithTop ℝ) := h1
              exact (WithTop.coe_inj.mp h2).symm
            have hext := hp₀.extend hnd hfin
            refine SInv.relax hp₀ hc₀ hnd rest _ _ visited queue' costs'
              hsub' ?_ hrun
            constructor
            · intro e he
              rcases List.mem_append.mp he with he | he
              · exact hinv.queue_path e he
              · rw [List.mem_singleton.mp he]
                refine ⟨p₀ ++ [neighbor], hext.1, ?_⟩
                rw [hext.2, hc₀, hrc]
            · intro n c hc
              unfold setCost at hc
              by_cases hn : n = neighbor
              · rw [if_pos hn] at hc
                refine ⟨p₀ ++ [neighbor], hn ▸ hext.1, ?_⟩
                rw [hext.2, hc₀, hrc]
                exact (Option.some.injEq _ _).mp hc
              · rw [if_neg hn] at hc
                exact hinv.costs_path n c hc
        · exact SInv.relax hp₀ hc₀ hnd rest queue costs visited queue'
            costs' hsub' hinv hrun

/-- The soundness invariant survives the whole loop: any cost in the final
table is realized by a sink path from a seed. -/
theorem aStarLoop_sound (G : Graph) (symptoms : List Node) :
    ∀ (fuel : Nat) (queue : List Entry) (costs : Costs)
      (visited : List Node) (final : Costs),
      SInv G symptoms queue costs →
      aStarLoop G fuel queue costs visited = some final →
      ∀ n c, final n = some c →
        ∃ p, IsSinkPath G symptoms p n ∧ pathCost G p = c := by
  intro fuel
  induction fuel with
  | zero =>
    intro queue costs visited final hinv hrun
    rw [aStarLoop, Option.some.injEq] at hrun
    exact hrun ▸ hinv.costs_path
  | succ fuel ih =>
    intro queue costs visited final hinv hrun
    rw [aStarLoop] at hrun
    split at hrun
    · rw [Option.some.injEq] at hrun
      exact hrun ▸ hinv.costs_path
    · rename_i pair e rest hpop
      obtain ⟨hmem, hperm, hmin, hrest⟩ := popMin_spec hpop
      have hrest_sub : ∀ x ∈ rest, x ∈ queue := fun x hx =>
        hperm.symm.subset (List.mem_cons_of_mem _ hx)
      split at hrun
      · exact ih rest costs visited final (hinv.sub hrest_sub) hrun
      · split at hrun
        · split at hrun
          · rename_i hnv hnodes hdis
            refine ih rest _ _ final ⟨fun e' he' =>
              hinv.queue_path e' (hrest_sub e' he'), fun n c hc => ?_⟩ hrun
            unfold setCost at hc
            by_cases hn : n = e.node
            · rw [if_pos hn] at hc
              obtain ⟨p, hp, hcost⟩ := hinv.queue_path e hmem
              exact ⟨p, hn ▸ hp, hcost.trans
                ((Option.some.injEq _ _).mp hc)⟩
            · rw [if_neg hn] at hc
              exact hinv.costs_path n c hc
          · rename_i hnv hnodes hdis
            split at hrun
            · exact absurd hrun (by simp)
            · rename_i result queue' costs' hrelax
              obtain ⟨p₀, hp₀, hc₀⟩ := hinv.queue_path e hmem
              exact ih queue' costs' _ final
                (SInv.relax hp₀ hc₀ hdis (G.adj e.node) rest costs _ queue'
                  costs' (fun x hx => hx) (hinv.sub hrest_sub) hrelax) hrun
        · exact absurd hrun (by simp)

theorem seedQueue_sound (G : Graph) (symptoms : List Node) :
    ∀ (syms : List Node) (queue : List Entry) (costs : Costs)
      (queue' : List Entry) (costs' : Costs),
      (∀ s ∈ syms, s ∈ symptoms) →
      SInv G symptoms queue costs →
      seedQueue G syms queue costs = some (queue', costs') →
      SInv G symptoms queue' costs'
  | [], queue, costs, queue', costs', _, hinv, hrun => by
    rw [seedQueue, Option.some.injEq] at hrun
    obtain ⟨rfl, rfl⟩ := Prod.mk.injEq _ _ _ _ ▸ hrun
    exact hinv
  | s :: rest, queue, costs, queue', costs', hsub, hinv, hrun => by
    rw [seedQueue] at hrun
    split at hrun
    · exact absurd hrun (by simp)
    · rename_i h hh
      have hs : s ∈ symptoms := hsub s (List.mem_cons_self _ _)
      have hseed := IsSinkPath.seed (G := G) hs
      refine seedQueue_sound G symptoms rest _ _ queue' costs'
        (fun x hx => hsub x (List.mem_cons_of_mem _ hx)) ?_ hrun
      constructor
      · intro e he
        rcases List.mem_append.mp he with he | he
        · exact hinv.queue_path e he
        · rw [List.mem_singleton.mp he]
          exact ⟨[s], hseed.1, hseed.2⟩
      · intro n c hc
        unfold setCost at hc
        by_cases hn : n = s
        · rw [if_pos hn] at hc
          refine ⟨[s], hn ▸ hseed.1, ?_⟩
          rw [hseed.2]
          exact ((Option.some.injEq _ _).mp hc)
        · rw [if_neg hn] at hc
          exact hinv.costs_path n c hc

/-- Unpacking a pair of the returned ranking: it is a disease node of the
graph whose recorded cost is realized by a usable-edge path from a seed
symptom that never relaxes out of a disease. -/
theorem a_star_search_mem {G : Graph} {symptoms : List Node}
    {r : List (Node × ℝ)} (hrun : a_star_search G symptoms = some r) :
    ∀ d c, (d, c) ∈ r → G.group d = some "disease" ∧ d ∈ G.nodes ∧
      ∃ p, IsSinkPath G symptoms p d ∧ pathCost G p = c := by
  intro d c hdc
  unfold a_star_search at hrun
  split at hrun
  · exact absurd hrun (by simp)
  · rename_i result queue costs hseed
    split at hrun
    · exact absurd hrun (by simp)
    · rename_i final hloop
      rw [Option.some.injEq] at hrun
      rw [← hrun] at hdc
      rw [List.mem_mergeSort] at hdc
      unfold diseaseScores at hdc
      obtain ⟨node, hnode, hsome⟩ := List.mem_filterMap.mp hdc
      by_cases hd : G.group node = some "disease"
      · rw [if_pos hd] at hsome
        obtain ⟨cv, hcv, heq⟩ := Option.map_eq_some'.mp hsome
        obtain ⟨rfl, rfl⟩ := Prod.mk.injEq _ _ _ _ ▸ heq
        have hinv0 : SInv G symptoms [] (fun _ => none) :=
          ⟨by simp, by simp⟩
        have hinv := seedQueue_sound G symptoms symptoms [] _ queue costs
          (fun x hx => hx) hinv0 hseed
        exact ⟨hd, hnode,
          aStarLoop_sound G symptoms _ queue costs [] final hinv hloop
            _ _ hcv⟩
      · rw [if_neg hd] at hsome
        exact absurd hsome (by simp)

/-! ## C5, C6, C7: properties of the returned ranking -/

/-- C5: an edge with weight `≤ 0` or with no weight attribute never
contributes to a finite accumulated cost: every returned cost is the cost
of a path all of whose edges carry a positive stored weight, and a disease
all of whose adjacency paths from the seed set cross a non-positive or
missing weight is absent from the ranking. -/
theorem C5_bad_edges_never_contribute (G : Graph) (symptoms : List Node)
    (r : List (Node × ℝ)) (hrun : a_star_search G symptoms = some r) :
    (∀ d c, (d, c) ∈ r → ∃ p, IsSeedPath G symptoms p d ∧
        pathCost G p = c ∧
        ∀ uv ∈ p.zip p.tail, 0 < (G.weight uv.1 uv.2).getD 0) ∧
      ∀ d, (∀ p, IsAdjPath G symptoms p d →
          ∃ uv ∈ p.zip p.tail, (G.weight uv.1 uv.2).getD 0 ≤ 0) →
        d ∉ r.map Prod.fst := by
  have key : ∀ d c, (d, c) ∈ r → ∃ p, IsSeedPath G symptoms p d ∧
      pathCost G p = c ∧
      ∀ uv ∈ p.zip p.tail, 0 < (G.weight uv.1 uv.2).getD 0 := by
    intro d c hdc
    obtain ⟨-, -, p, hp, hcost⟩ := a_star_search_mem hrun d c hdc
    refine ⟨p, hp.1, hcost, fun uv huv => ?_⟩
    exact finStep_weight_pos (chain'_consec hp.1.1 uv huv)
  refine ⟨key, fun d hall hd => ?_⟩
  obtain ⟨⟨d', c⟩, hdc, rfl⟩ := List.mem_map.mp hd
  obtain ⟨p, hp, -, hpos⟩ := key _ c hdc
  have hadj : IsAdjPath G symptoms p d' :=
    ⟨List.Chain'.imp (fun a b hab => hab.1) hp.1, hp.2.1, hp.2.2⟩
  obtain ⟨uv, huv, hbad⟩ := hall p hadj
  exact absurd (hpos uv huv) (not_lt.mpr hbad)

/-- C6: a disease with no usable-edge path from any seed symptom is absent
from the returned ranking (it is omitted, not scored as infinite). -/
theorem C6_unreachable_absent (G : Graph) (symptoms : List Node)
    (r : List (Node × ℝ)) (d : Node)
    (hrun : a_star_search G symptoms = some r)
    (hunreach : ¬ ∃ p, IsSeedPath G symptoms p d) :
    d ∉ r.map Prod.fst := by
  intro hd
  obtain ⟨⟨d', c⟩, hdc, rfl⟩ := List.mem_map.mp hd
  obtain ⟨-, -, p, hp, -⟩ := a_star_search_mem hrun d' c hdc
  exact hunreach ⟨p, hp.1⟩

/-- C7: the returned ranking is non-decreasing in cost: whenever one pair
precedes another, its cost is no larger. -/
theorem C7_output_sorted (G : Graph) (symptoms : List Node)
    (r : List (Node × ℝ)) (hrun : a_star_search G symptoms = some r) :
    r.Pairwise (fun a b => a.2 ≤ b.2) := by
  unfold a_star_search at hrun
  split at hrun
  · exact absurd hrun (by simp)
  · split at hrun
    · exact absurd hrun (by simp)
    · rename_i result queue costs hseed opt final hloop
      rw [Option.some.injEq] at hrun
      rw [← hrun]
      refine List.Pairwise.imp (fun h => by simpa using h)
        (List.sorted_mergeSort ?_ ?_ (diseaseScores G final))
      · intro a b c hab hbc
        simp only [decide_eq_true_eq] at hab hbc ⊢
        exact hab.trans hbc
      · intro a b
        simp only [Bool.or_eq_true, decide_eq_true_eq]
        exact le_total a.2 b.2

/-! ## Step equations of the loop (for concrete runs) -/

theorem popMin_single (e : Entry) : popMin [e] = some (e, []) := by
  unfold popMin findMin
  simp [List.erase_cons_head]

theorem aStarLoop_empty (G : Graph) (fuel : Nat) (costs : Costs)
    (visited : List Node) : aStarLoop G fuel [] costs visited = some costs := by
  cases fuel with
  | zero => rfl
  | succ n => rw [aStarLoop, popMin_nil]

theorem aStarLoop_stale (G : Graph) (fuel : Nat) (queue rest : List Entry)
    (costs : Costs) (visited : List Node) (e : Entry)
    (hpop : popMin queue = some (e, rest)) (hv : e.node ∈ visited) :
    aStarLoop G (fuel + 1) queue costs visited =
      aStarLoop G fuel rest costs visited := by
  rw [aStarLoop, hpop]
  simp only [if_pos hv]

theorem aStarLoop_disease (G : Graph) (fuel : Nat) (queue rest : List Entry)
    (costs : Costs) (visited : List Node) (e : Entry)
    (hpop : popMin queue = some (e, rest)) (hnv : e.node ∉ visited)
    (hmem : e.node ∈ G.nodes) (hdis : G.group e.node = some "disease") :
    aStarLoop G (fuel + 1) queue costs visited =
      aStarLoop G fuel rest (setCost costs e.node e.g) (e.node :: visited) := by
  rw [aStarLoop, hpop]
  simp only [if_neg hnv, if_pos hmem, if_pos hdis]

theorem aStarLoop_expand (G : Graph) (fuel : Nat) (queue rest queue' : List Entry)
    (costs costs' : Costs) (visited : List Node) (e : Entry)
    (hpop : popMin queue = some (e, rest)) (hnv : e.node ∉ visited)
    (hmem : e.node ∈ G.nodes) (hdis : G.group e.node ≠ some "disease")
    (hrelax : relaxNbrs G e.node e.g (G.adj e.node) rest costs
      (e.node :: visited) = some (queue', costs')) :
    aStarLoop G (fuel + 1) queue costs visited =
      aStarLoop G fuel queue' costs' (e.node :: visited) := by
  rw [aStarLoop, hpop]
  simp only [if_neg hnv, if_pos hmem, if_neg hdis, hrelax]

/-! ## A full concrete run on `Gb` (used by the witnesses) -/

theorem Gb_heuristic_s : heuristic "s" Gb = some ⊤ := by
  unfold heuristic
  rw [if_pos (by simp [Gb]), if_neg (by simp [Gb])]
  have hadj : Gb.adj "s" = ["d"] := rfl
  rw [hadj]
  simp [Gb_edge_weight_top]

/-- The complete run of the engine on `Gb` from the symptom `s`: the only
edge is unusable, so the ranking is empty. -/
theorem Gb_run : a_star_search Gb ["s"] = some [] := by
  have hseed : seedQueue Gb ["s"] [] (fun _ => none) =
      some ([⟨⊤, "s", 0⟩], setCost (fun _ => none) "s" 0) := by
    unfold seedQueue
    rw [Gb_heuristic_s]
    unfold seedQueue
    rfl
  have hrelax : relaxNbrs Gb "s" 0 (Gb.adj "s") []
      (setCost (fun _ => none) "s" 0) ["s"] =
      some ([], setCost (fun _ => none) "s" 0) := by
    have hadj : Gb.adj "s" = ["d"] := rfl
    rw [hadj]
    unfold relaxNbrs
    rw [if_neg (by simp), Gb_edge_weight_top]
    unfold relaxNbrs
    rfl
  have hfuel : searchFuel Gb ["s"] = 3 + 1 := rfl
  have hloop : aStarLoop Gb (3 + 1) [⟨⊤, "s", 0⟩]
      (setCost (fun _ => none) "s" 0) [] =
      some (setCost (fun _ => none) "s" 0) := by
    rw [aStarLoop_expand Gb 3 _ [] [] _ (setCost (fun _ => none) "s" 0) []
      ⟨⊤, "s", 0⟩ (popMin_single _) (by simp) (by simp [Gb]) (by simp [Gb])
      hrelax]
    exact aStarLoop_empty Gb 3 _ _
  have hscores : diseaseScores Gb (setCost (fun _ => none) "s" 0) = [] := by
    unfold diseaseScores setCost
    have hn : Gb.nodes = ["s", "d"] := rfl
    rw [hn]
    simp [Gb]
  unfold a_star_search
  rw [hseed]
  dsimp only
  rw [hfuel, hloop]
  dsimp only
  rw [hscores]
  simp

/-- In `Gb` no usable-edge path exists at all, in particular none from the
seed `s` to the disease `d`. -/
theorem Gb_no_seed_path : ¬ ∃ p, IsSeedPath Gb ["s"] p "d" := by
  rintro ⟨p, hchain, ⟨s, hs, hhead⟩, hlast⟩
  obtain rfl : s = "s" := by simpa using hs
  match p, hchain, hhead, hlast with
  | [], _, hhead, _ => simp at hhead
  | [x], _, hhead, hlast =>
    rw [List.head?_cons, Option.some.injEq] at hhead
    rw [List.getLast?_singleton, Option.some.injEq] at hlast
    rw [hhead] at hlast
    simp at hlast
  | a :: b :: r, hchain, _, _ =>
    have hstep : finStep Gb a b := (List.chain'_cons.mp hchain).1
    exact absurd (Gb_edge_weight_top a b) hstep.2

/-- C5's witness: in `Gb` every adjacency path from the seed to the disease
crosses the zero-weight edge, and the disease is indeed absent. -/
theorem C5_witness :
    a_star_search Gb ["s"] = some [] ∧
      ((∀ d c, (d, c) ∈ ([] : List (Node × ℝ)) →
          ∃ p, IsSeedPath Gb ["s"] p d ∧ pathCost Gb p = c ∧
            ∀ uv ∈ p.zip p.tail, 0 < (Gb.weight uv.1 uv.2).getD 0) ∧
        ∀ d, (∀ p, IsAdjPath Gb ["s"] p d →
            ∃ uv ∈ p.zip p.tail, (Gb.weight uv.1 uv.2).getD 0 ≤ 0) →
          d ∉ ([] : List (Node × ℝ)).map Prod.fst) :=
  ⟨Gb_run, C5_bad_edges_never_contribute Gb ["s"] [] Gb_run⟩

/-- C6's witness: the unreachable disease `d` of `Gb` is absent from the
(empty) ranking. -/
theorem C6_witness :
    a_star_search Gb ["s"] = some [] ∧
      (¬ ∃ p, IsSeedPath Gb ["s"] p "d") ∧
      "d" ∉ ([] : List (Node × ℝ)).map Prod.fst :=
  ⟨Gb_run, Gb_no_seed_path,
    C6_unreachable_absent Gb ["s"] [] "d" Gb_run Gb_no_seed_path⟩

/-- C7's witness: the ranking returned on `Gb` is sorted. -/
theorem C7_witness :
    a_star_search Gb ["s"] = some [] ∧
      ([] : List (Node × ℝ)).Pairwise (fun a b => a.2 ≤ b.2) :=
  ⟨Gb_run, C7_output_sorted Gb ["s"] [] Gb_run⟩

/-! ## The queue-independence of relaxation, and the loop's step measure -/

/-- Relaxation only appends to the queue: the pushed suffix and the updated
costs do not depend on the incoming queue. -/
theorem relaxNbrs_decomp (G : Graph) (node : Node) (g : ℝ) :
    ∀ (ns : List Node) (queue : List Entry) (costs : Costs)
      (visited : List Node),
      relaxNbrs G node g ns queue costs visited =
        (relaxNbrs G node g ns [] costs visited).map
          (fun qc => (queue ++ qc.1, qc.2))
  | [], queue, costs, visited => by
    rw [relaxNbrs, relaxNbrs]
    simp
  | neighbor :: rest, queue, costs, visited => by
    rw [relaxNbrs, relaxNbrs]
    by_cases hv : neighbor ∈ visited
    · rw [if_pos hv, if_pos hv]
      exact relaxNbrs_decomp G node g rest queue costs visited
    · rw [if_neg hv, if_neg hv]
      cases hew : edge_weight G node neighbor with
      | top =>
        exact relaxNbrs_decomp G node g rest queue costs visited
      | coe cost =>
        simp only
        by_cases himp : improves (g + cost) (costs neighbor)
        · rw [if_pos himp, if_pos himp]
          cases hh : heuristic neighbor G with
          | none => rfl
          | some h =>
            simp only
            rw [relaxNbrs_decomp G node g rest (queue ++ [_]),
              relaxNbrs_decomp G node g rest ([] ++ [_])]
            cases relaxNbrs G node g rest [] (setCost costs neighbor (g + cost))
              visited with
            | none => rfl
            | some qc => simp
        · rw [if_neg himp, if_neg himp]
          exact relaxNbrs_decomp G node g rest queue costs visited

/-- Relaxation pushes at most one entry per neighbor. -/
theorem relaxNbrs_length (G : Graph) (node : Node) (g : ℝ) :
    ∀ (ns : List Node) (queue : List Entry) (costs : Costs)
      (visited : List Node) (queue' : List Entry) (costs' : Costs),
      relaxNbrs G node g ns queue costs visited = some (queue', costs') →
      queue'.length ≤ queue.length + ns.length
  | [], queue, costs, visited, queue', costs', h => by
    rw [relaxNbrs, Option.some.injEq] at h
    obtain ⟨rfl, rfl⟩ := Prod.mk.injEq _ _ _ _ ▸ h
    simp
  | neighbor :: rest, queue, costs, visited, queue', costs', h => by
    rw [relaxNbrs] at h
    split at h
    · have := relaxNbrs_length G node g rest queue costs visited queue'
        costs' h
      simp only [List.length_cons]
      omega
    · split at h
      · have := relaxNbrs_length G node g rest queue costs visited queue'
          costs' h
        simp only [List.length_cons]
        omega
      · simp only at h
        split at h
        · split at h
          · exact absurd h (by simp)
          · have := relaxNbrs_length G node g rest _ _ visited queue'
              costs' h
            simp only [List.length_append, List.length_cons,
              List.length_nil] at this ⊢
            omega
        · have := relaxNbrs_length G node g rest queue costs visited queue'
            costs' h
          simp only [List.length_cons]
          omega

/-- The degree sum of the not-yet-visited nodes. -/
def degSum (G : Graph) (visited : List Node) : Nat :=
  ((G.nodes.filter fun n => n ∉ visited).map fun n => (G.adj n).length).sum

/-- The loop measure: queue length plus unvisited degree sum; every loop
iteration strictly decreases it. -/
def phi (G : Graph) (queue : List Entry) (visited : List Node) : Nat :=
  queue.length + degSum G visited

theorem filterSum_mono (f : Node → Nat) (node : Node) (visited : List Node) :
    ∀ l : List Node,
      ((l.filter fun n => n ∉ node :: visited).map f).sum ≤
        ((l.filter fun n => n ∉ visited).map f).sum
  | [] => by simp
  | x :: l => by
    have ih := filterSum_mono f node visited l
    by_cases h1 : x ∈ visited
    · rw [List.filter_cons_of_neg (by simp [h1]),
        List.filter_cons_of_neg (by simp [h1])]
      exact ih
    · by_cases h2 : x = node
      · subst h2
        rw [List.filter_cons_of_neg (by simp),
          List.filter_cons_of_pos (by simp [h1])]
        simp only [List.map_cons, List.sum_cons]
        omega
      · rw [List.filter_cons_of_pos (by simp [h1, h2]),
          List.filter_cons_of_pos (by simp [h1])]
        simp only [List.map_cons, List.sum_cons]
        omega

theorem filterSum_visit (f : Node → Nat) (node : Node) (visited : List Node)
    (hnv : node ∉ visited) :
    ∀ l : List Node, node ∈ l →
      ((l.filter fun n => n ∉ node :: visited).map f).sum + f node ≤
        ((l.filter fun n => n ∉ visited).map f).sum
  | [], h => by simp at h
  | x :: l, hmem => by
    by_cases h2 : x = node
    · subst h2
      rw [List.filter_cons_of_neg (by simp),
        List.filter_cons_of_pos (by simp [hnv])]
      simp only [List.map_cons, List.sum_cons]
      have := filterSum_mono f x visited l
      omega
    · have hmem' : node ∈ l := by
        rcases List.mem_cons.mp hmem with h | h
        · exact absurd h.symm h2
        · exact h
      have ih := filterSum_visit f node visited hnv l hmem'
      by_cases h1 : x ∈ visited
      · rw [List.filter_cons_of_neg (by simp [h1]),
          List.filter_cons_of_neg (by simp [h1])]
        exact ih
      · rw [List.filter_cons_of_pos (by simp [h1, h2]),
          List.filter_cons_of_pos (by simp [h1])]
        simp only [List.map_cons, List.sum_cons]
        omega

theorem degSum_mono (G : Graph) (node : Node) (visited : List Node) :
    degSum G (node :: visited) ≤ degSum G visited :=
  filterSum_mono _ node visited G.nodes

theorem degSum_visit (G : Graph) (node : Node) (visited : List Node)
    (hmem : node ∈ G.nodes) (hnv : node ∉ visited) :
    degSum G (node :: visited) + (G.adj node).length ≤ degSum G visited :=
  filterSum_visit _ node visited hnv G.nodes hmem

theorem popMin_length {queue rest : List Entry} {e : Entry}
    (h : popMin queue = some (e, rest)) :
    queue.length = rest.length + 1 := by
  obtain ⟨-, hperm, -, -⟩ := popMin_spec h
  simpa using hperm.length_eq

/-! ## Bisimulation: the loop result only depends on the live entry set -/

theorem aStarLoop_keyError (G : Graph) (fuel : Nat) (queue rest : List Entry)
    (costs : Costs) (visited : List Node) (e : Entry)
    (hpop : popMin queue = some (e, rest)) (hnv : e.node ∉ visited)
    (hmem : e.node ∉ G.nodes) :
    aStarLoop G (fuel + 1) queue costs visited = none := by
  rw [aStarLoop, hpop]
  simp only [if_neg hnv, if_neg hmem]

theorem aStarLoop_relaxFail (G : Graph) (fuel : Nat) (queue rest : List Entry)
    (costs : Costs) (visited : List Node) (e : Entry)
    (hpop : popMin queue = some (e, rest)) (hnv : e.node ∉ visited)
    (hmem : e.node ∈ G.nodes) (hdis : G.group e.node ≠ some "disease")
    (hrelax : relaxNbrs G e.node e.g (G.adj e.node) rest costs
      (e.node :: visited) = none) :
    aStarLoop G (fuel + 1) queue costs visited = none := by
  rw [aStarLoop, hpop]
  simp only [if_neg hnv, if_pos hmem, if_neg hdis, hrelax]

/-- Two queues agree on their entries at not-yet-visited nodes. -/
def liveEq (visited : List Node) (q₁ q₂ : List Entry) : Prop :=
  ∀ e : Entry, e.node ∉ visited → (e ∈ q₁ ↔ e ∈ q₂)

/-- A queue of stale entries only drains without any effect. -/
theorem aStarLoop_drain (G : Graph) :
    ∀ (fuel : Nat) (queue : List Entry) (costs : Costs)
      (visited : List Node),
      queue.length < fuel → (∀ e ∈ queue, e.node ∈ visited) →
      aStarLoop G fuel queue costs visited = some costs := by
  intro fuel
  induction fuel with
  | zero =>
    intro queue costs visited h
    omega
  | succ fuel ih =>
    intro queue costs visited hlen hstale
    match hq : popMin queue with
    | none => exact (popMin_eq_none.mp hq) ▸ aStarLoop_empty G _ costs visited
    | some (e, rest) =>
      obtain ⟨hmem, hperm, -, -⟩ := popMin_spec hq
      rw [aStarLoop_stale G fuel queue rest costs visited e hq (hstale e hmem)]
      refine ih rest costs visited ?_ ?_
      · have := popMin_length hq
        omega
      · exact fun x hx => hstale x (hperm.symm.subset (List.mem_cons_of_mem _ hx))

theorem liveEq_erase {visited : List Node} {q₁ q₂ : List Entry} {e : Entry}
    (hlive : liveEq visited q₁ q₂) :
    liveEq (e.node :: visited) (q₁.erase e) (q₂.erase e) := by
  intro x hx
  have hne : x ≠ e := by
    intro h
    exact hx (h ▸ List.mem_cons_self _ _)
  have hx' : x.node ∉ visited := fun h => hx (List.mem_cons_of_mem _ h)
  rw [List.mem_erase_of_ne hne, List.mem_erase_of_ne hne]
  exact hlive x hx'

theorem liveEq_stale_erase {visited : List Node} {q₁ q₂ : List Entry}
    {e : Entry} (hlive : liveEq visited q₁ q₂) (he : e.node ∈ visited) :
    liveEq visited (q₁.erase e) q₂ := by
  intro x hx
  have hne : x ≠ e := by
    intro h
    rw [h] at hx
    exact hx he
  rw [List.mem_erase_of_ne hne]
  exact hlive x hx

theorem liveEq_append {visited : List Node} {q₁ q₂ P : List Entry}
    (hlive : liveEq visited q₁ q₂) :
    liveEq visited (q₁ ++ P) (q₂ ++ P) := by
  intro x hx
  rw [List.mem_append, List.mem_append, hlive x hx]

/-- Live minima of live-equal queues coincide. -/
theorem popMin_liveEq {visited : List Node} {q₁ q₂ r₁ r₂ : List Entry}
    {e₁ e₂ : Entry} (hlive : liveEq visited q₁ q₂)
    (h₁ : popMin q₁ = some (e₁, r₁)) (h₂ : popMin q₂ = some (e₂, r₂))
    (hl₁ : e₁.node ∉ visited) (hl₂ : e₂.node ∉ visited) : e₁ = e₂ := by
  obtain ⟨hm₁, -, hmin₁, -⟩ := popMin_spec h₁
  obtain ⟨hm₂, -, hmin₂, -⟩ := popMin_spec h₂
  exact entryLe.antisymm (hmin₁ e₂ ((hlive e₂ hl₂).mpr hm₂))
    (hmin₂ e₁ ((hlive e₁ hl₁).mp hm₁))

/-- The loop is a function of the queue's live entry set: with enough fuel,
two runs from live-equal queues and identical costs/visited produce the
same result. -/
theorem aStarLoop_bisim (G : Graph) :
    ∀ (n f₁ f₂ : Nat) (q₁ q₂ : List Entry) (costs : Costs)
      (visited : List Node),
      f₁ + f₂ ≤ n →
      phi G q₁ visited < f₁ → phi G q₂ visited < f₂ →
      liveEq visited q₁ q₂ →
      aStarLoop G f₁ q₁ costs visited = aStarLoop G f₂ q₂ costs visited := by
  intro n
  induction n with
  | zero =>
    intro f₁ f₂ q₁ q₂ costs visited hn h1 h2
    omega
  | succ n ih =>
    intro f₁ f₂ q₁ q₂ costs visited hn h1 h2 hlive
    match f₁, h1 with
    | f₁ + 1, h1 =>
    match f₂, h2 with
    | f₂ + 1, h2 =>
    match hq₁ : popMin q₁ with
    | none =>
      obtain rfl := popMin_eq_none.mp hq₁
      rw [aStarLoop_empty]
      refine (aStarLoop_drain G (f₂+1) q₂ costs visited ?_ ?_).symm
      · have : phi G q₂ visited = q₂.length + degSum G visited := rfl
        omega
      · intro e he
        by_contra hnv
        exact (by simpa using (hlive e hnv).mpr he : False)
    | some (e₁, r₁) =>
      obtain ⟨hm₁, hperm₁, hmin₁, hr₁⟩ := popMin_spec hq₁
      have hlen₁ := popMin_length hq₁
      by_cases hv₁ : e₁.node ∈ visited
      · rw [aStarLoop_stale G f₁ q₁ r₁ costs visited e₁ hq₁ hv₁]
        refine ih f₁ (f₂+1) r₁ q₂ costs visited (by omega) ?_ h2 ?_
        · have : phi G q₁ visited = q₁.length + degSum G visited := rfl
          have : phi G r₁ visited = r₁.length + degSum G visited := rfl
          unfold phi at h1 ⊢
          omega
        · exact hr₁ ▸ liveEq_stale_erase hlive hv₁
      · match hq₂ : popMin q₂ with
        | none =>
          obtain rfl := popMin_eq_none.mp hq₂
          exact absurd ((hlive e₁ hv₁).mp hm₁) (by simp)
        | some (e₂, r₂) =>
          obtain ⟨hm₂, hperm₂, hmin₂, hr₂⟩ := popMin_spec hq₂
          have hlen₂ := popMin_length hq₂
          by_cases hv₂ : e₂.node ∈ visited
          · rw [aStarLoop_stale G f₂ q₂ r₂ costs visited e₂ hq₂ hv₂]
            refine ih (f₁+1) f₂ q₁ r₂ costs visited (by omega) h1 ?_ ?_
            · unfold phi at h2 ⊢
              omega
            · have := liveEq_stale_erase (fun e he => (hlive e he).symm) hv₂
              exact hr₂ ▸ fun e he => (this e he).symm
          · obtain rfl : e₁ = e₂ := popMin_liveEq hlive hq₁ hq₂ hv₁ hv₂
            have hliveR : liveEq (e₁.node :: visited) r₁ r₂ :=
              hr₁ ▸ hr₂ ▸ liveEq_erase hlive
            by_cases hmem : e₁.node ∈ G.nodes
            · by_cases hdis : G.group e₁.node = some "disease"
              · rw [aStarLoop_disease G f₁ q₁ r₁ costs visited e₁ hq₁ hv₁
                  hmem hdis,
                  aStarLoop_disease G f₂ q₂ r₂ costs visited e₁ hq₂ hv₂
                  hmem hdis]
                refine ih f₁ f₂ r₁ r₂ _ _ (by omega) ?_ ?_ hliveR
                · have hds := degSum_mono G e₁.node visited
                  unfold phi at h1 ⊢
                  omega
                · have hds := degSum_mono G e₁.node visited
                  unfold phi at h2 ⊢
                  omega
              · have hdecomp₁ := relaxNbrs_decomp G e₁.node e₁.g
                  (G.adj e₁.node) r₁ costs (e₁.node :: visited)
                have hdecomp₂ := relaxNbrs_decomp G e₁.node e₁.g
                  (G.adj e₁.node) r₂ costs (e₁.node :: visited)
                match hbase : relaxNbrs G e₁.node e₁.g (G.adj e₁.node) []
                    costs (e₁.node :: visited) with
                | none =>
                  rw [hbase] at hdecomp₁ hdecomp₂
                  rw [aStarLoop_relaxFail G f₁ q₁ r₁ costs visited e₁ hq₁
                      hv₁ hmem hdis (by simpa using hdecomp₁),
                    aStarLoop_relaxFail G f₂ q₂ r₂ costs visited e₁ hq₂
                      hv₂ hmem hdis (by simpa using hdecomp₂)]
                | some PC =>
                  obtain ⟨P, costs'⟩ := PC
                  rw [hbase] at hdecomp₁ hdecomp₂
                  simp only [Option.map_some'] at hdecomp₁ hdecomp₂
                  have hPlen := relaxNbrs_length G e₁.node e₁.g
                    (G.adj e₁.node) [] costs (e₁.node :: visited) P costs'
                    hbase
                  simp only [List.length_nil, Nat.zero_add] at hPlen
                  rw [aStarLoop_expand G f₁ q₁ r₁ (r₁ ++ P) costs costs'
                      visited e₁ hq₁ hv₁ hmem hdis hdecomp₁,
                    aStarLoop_expand G f₂ q₂ r₂ (r₂ ++ P) costs costs'
                      visited e₁ hq₂ hv₂ hmem hdis hdecomp₂]
                  refine ih f₁ f₂ (r₁ ++ P) (r₂ ++ P) costs'
                    (e₁.node :: visited) (by omega) ?_ ?_
                    (liveEq_append hliveR)
                  · have hds := degSum_visit G e₁.node visited hmem hv₁
                    unfold phi at h1 ⊢
                    simp only [List.length_append]
                    omega
                  · have hds := degSum_visit G e₁.node visited hmem hv₁
                    unfold phi at h2 ⊢
                    simp only [List.length_append]
                    omega
            · rw [aStarLoop_keyError G f₁ q₁ r₁ costs visited e₁ hq₁ hv₁
                  hmem,
                aStarLoop_keyError G f₂ q₂ r₂ costs visited e₁ hq₂ hv₂ hmem]

/-! ## Seeding characterization -/

theorem heuristic_isSome {G : Graph} {node : Node} (h : node ∈ G.nodes) :
    ∃ hv, heuristic node G = some hv := by
  unfold heuristic
  rw [if_pos h]
  split
  · exact ⟨0, rfl⟩
  · split
    · exact ⟨0, rfl⟩
    · exact ⟨_, rfl⟩

theorem seedQueue_success {G : Graph} :
    ∀ (syms : List Node) (queue : List Entry) (costs : Costs),
      (∀ s ∈ syms, s ∈ G.nodes) →
      ∃ out, seedQueue G syms queue costs = some out
  | [], queue, costs, _ => ⟨(queue, costs), rfl⟩
  | s :: rest, queue, costs, hmem => by
    obtain ⟨hv, hh⟩ := heuristic_isSome (hmem s (List.mem_cons_self _ _))
    rw [seedQueue, hh]
    exact seedQueue_success rest _ _
      (fun x hx => hmem x (List.mem_cons_of_mem _ hx))

theorem seedQueue_costs {G : Graph} :
    ∀ (syms : List Node) (queue : List Entry) (costs : Costs)
      (queue' : List Entry) (costs' : Costs),
      seedQueue G syms queue costs = some (queue', costs') →
      ∀ n, costs' n = if n ∈ syms then some 0 else costs n
  | [], queue, costs, queue', costs', h, n => by
    rw [seedQueue, Option.some.injEq] at h
    obtain ⟨rfl, rfl⟩ := Prod.mk.injEq _ _ _ _ ▸ h
    simp
  | s :: rest, queue, costs, queue', costs', h, n => by
    rw [seedQueue] at h
    split at h
    · exact absurd h (by simp)
    · have ih := seedQueue_costs rest _ _ queue' costs' h n
      rw [ih]
      unfold setCost
      by_cases hn : n ∈ rest
      · rw [if_pos hn, if_pos (List.mem_cons_of_mem _ hn)]
      · rw [if_neg hn]
        by_cases hns : n = s
        · rw [if_pos hns, if_pos (hns ▸ List.mem_cons_self _ _)]
        · rw [if_neg hns, if_neg (by simp [hns, hn])]

theorem seedQueue_mem {G : Graph} :
    ∀ (syms : List Node) (queue : List Entry) (costs : Costs)
      (queue' : List Entry) (costs' : Costs),
      seedQueue G syms queue costs = some (queue', costs') →
      ∀ e : Entry, e ∈ queue' ↔ e ∈ queue ∨
        ∃ s ∈ syms, heuristic s G = some e.est ∧ e.node = s ∧ e.g = 0
  | [], queue, costs, queue', costs', h, e => by
    rw [seedQueue, Option.some.injEq] at h
    obtain ⟨rfl, rfl⟩ := Prod.mk.injEq _ _ _ _ ▸ h
    simp
  | s :: rest, queue, costs, queue', costs', h, e => by
    rw [seedQueue] at h
    split at h
    · exact absurd h (by simp)
    · rename_i hv hh
      rw [seedQueue_mem rest _ _ queue' costs' h e]
      constructor
      · rintro (he | he)
        · rcases List.mem_append.mp he with he | he
          · exact Or.inl he
          · obtain rfl := List.mem_singleton.mp he
            exact Or.inr ⟨s, List.mem_cons_self _ _, hh, rfl, rfl⟩
        · obtain ⟨x, hx, hrest⟩ := he
          exact Or.inr ⟨x, List.mem_cons_of_mem _ hx, hrest⟩
      · rintro (he | ⟨x, hx, hhx, hnode, hg⟩)
        · exact Or.inl (List.mem_append_left _ he)
        · rcases List.mem_cons.mp hx with rfl | hx
          · refine Or.inl (List.mem_append_right _ ?_)
            rw [List.mem_singleton]
            obtain ⟨est, node, g⟩ := e
            simp only at hhx hnode hg
            rw [hh, Option.some.injEq] at hhx
            simp [hnode, hg, hhx.symm]
          · exact Or.inr ⟨x, hx, hhx, hnode, hg⟩

theorem seedQueue_length {G : Graph} :
    ∀ (syms : List Node) (queue : List Entry) (costs : Costs)
      (queue' : List Entry) (costs' : Costs),
      seedQueue G syms queue costs = some (queue', costs') →
      queue'.length = queue.length + syms.length
  | [], queue, costs, queue', costs', h => by
    rw [seedQueue, Option.some.injEq] at h
    obtain ⟨rfl, rfl⟩ := Prod.mk.injEq _ _ _ _ ▸ h
    simp
  | s :: rest, queue, costs, queue', costs', h => by
    rw [seedQueue] at h
    split at h
    · exact absurd h (by simp)
    · have ih := seedQueue_length rest _ _ queue' costs' h
      simp only [List.length_append, List.length_cons, List.length_nil] at ih
      simp only [List.length_cons]
      omega

theorem degSum_nil (G : Graph) :
    degSum G [] = (G.nodes.map fun v => (G.adj v).length).sum := by
  unfold degSum
  congr 1
  congr 1
  exact List.filter_eq_self.mpr (fun a _ => by simp)

/-! ## C10: invariance under reordering and duplication of the seeds -/

/-- C10: for seed lists naming the same set of identifiers, all of them
nodes of the graph, `a_star_search` returns identical rankings: the result
only depends on the set of seed symptoms. -/
theorem C10_seed_set_invariance (G : Graph) (s s' : List Node)
    (hset : ∀ x, x ∈ s ↔ x ∈ s') (hmem : ∀ x ∈ s, x ∈ G.nodes) :
    a_star_search G s = a_star_search G s' := by
  have hmem' : ∀ x ∈ s', x ∈ G.nodes := fun x hx =>
    hmem x ((hset x).mpr hx)
  obtain ⟨⟨q₁, c₁⟩, h₁⟩ := seedQueue_success s [] (fun _ => none) hmem
  obtain ⟨⟨q₂, c₂⟩, h₂⟩ := seedQueue_success s' [] (fun _ => none) hmem'
  have hc : c₁ = c₂ := by
    funext n
    rw [seedQueue_costs s [] _ q₁ c₁ h₁ n, seedQueue_costs s' [] _ q₂ c₂ h₂ n]
    by_cases hn : n ∈ s
    · rw [if_pos hn, if_pos ((hset n).mp hn)]
    · rw [if_neg hn, if_neg (fun h => hn ((hset n).mpr h))]
  have hlive : liveEq [] q₁ q₂ := by
    intro e _
    rw [seedQueue_mem s [] _ q₁ c₁ h₁ e, seedQueue_mem s' [] _ q₂ c₂ h₂ e]
    simp only [List.not_mem_nil, false_or]
    constructor
    · rintro ⟨x, hx, hrest⟩
      exact ⟨x, (hset x).mp hx, hrest⟩
    · rintro ⟨x, hx, hrest⟩
      exact ⟨x, (hset x).mpr hx, hrest⟩
  have hphi₁ : phi G q₁ [] < searchFuel G s := by
    unfold phi searchFuel
    rw [degSum_nil, seedQueue_length s [] _ q₁ c₁ h₁]
    simp
  have hphi₂ : phi G q₂ [] < searchFuel G s' := by
    unfold phi searchFuel
    rw [degSum_nil, seedQueue_length s' [] _ q₂ c₂ h₂]
    simp
  have hbisim := aStarLoop_bisim G (searchFuel G s + searchFuel G s')
    (searchFuel G s) (searchFuel G s') q₁ q₂ c₂ [] le_rfl hphi₁ hphi₂ hlive
  unfold a_star_search
  rw [h₁, h₂]
  dsimp only
  rw [hc, hbisim]

/-- C10's witness: duplicating the seed of `Gb` changes nothing. -/
theorem C10_witness :
    (∀ x : Node, x ∈ ["s", "s"] ↔ x ∈ ["s"]) ∧
      (∀ x ∈ ["s", "s"], x ∈ Gb.nodes) ∧
      a_star_search Gb ["s", "s"] = a_star_search Gb ["s"] :=
  ⟨fun x => by simp, fun x hx => by
      obtain rfl : x = "s" := by simpa using hx
      simp [Gb],
    C10_seed_set_invariance Gb ["s", "s"] ["s"] (fun x => by simp)
      (fun x hx => by
        obtain rfl : x = "s" := by simpa using hx
        simp [Gb])⟩

/-! ## Well-formed weights and the heuristic's key properties -/

/-- Every edge of the graph stores a weight in `(0, 1]` (the spec's
association strengths). -/
def WeightsOK (G : Graph) : Prop :=
  ∀ u, ∀ v ∈ G.adj u, ∃ w, G.weight u v = some w ∧ 0 < w ∧ w ≤ 1

/-- Neighbors lie in the node table (a networkx graph invariant). -/
def AdjClosed (G : Graph) : Prop :=
  ∀ u v, v ∈ G.adj u → v ∈ G.nodes

theorem WeightsOK.finStep {G : Graph} (hW : WeightsOK G) {u v : Node}
    (hv : v ∈ G.adj u) : finStep G u v := by
  obtain ⟨w, hw, hpos, -⟩ := hW u v hv
  refine ⟨hv, ?_⟩
  rw [Ne, edge_weight_eq_top_iff, hw]
  simpa using not_le.mpr hpos

theorem WeightsOK.realCost_nonneg {G : Graph} (hW : WeightsOK G) {u v : Node}
    (hv : v ∈ G.adj u) : 0 ≤ realCost G u v := by
  obtain ⟨w, hw, hpos, hle⟩ := hW u v hv
  unfold realCost
  rw [hw]
  simp only [Option.getD_some]
  have := Real.log_nonpos (le_of_lt hpos) hle
  linarith

theorem WeightsOK.edge_weight_eq {G : Graph} (hW : WeightsOK G) {u v : Node}
    (hv : v ∈ G.adj u) :
    edge_weight G u v = ((realCost G u v : ℝ) : WithTop ℝ) :=
  edge_weight_of_ne_top (hW.finStep hv).2

theorem WeightsOK.pathCost_nonneg {G : Graph} (hW : WeightsOK G) :
    ∀ p : List Node, p.Chain' (fun u v => v ∈ G.adj u) → 0 ≤ pathCost G p
  | [], _ => le_of_eq rfl
  | [_], _ => le_of_eq rfl
  | u :: v :: rest, hc => by
    rw [List.chain'_cons] at hc
    have h1 := hW.realCost_nonneg hc.1
    have h2 := hW.pathCost_nonneg (v :: rest) hc.2
    rw [pathCost_cons_cons]
    linarith

/-- Under well-formed weights, the heuristic of any graph node is a
non-negative real bounded by each incident edge's cost. -/
theorem heuristic_real {G : Graph} (hW : WeightsOK G) {node : Node}
    (hmem : node ∈ G.nodes) :
    ∃ hr : ℝ, heuristic node G = some ((hr : ℝ) : WithTop ℝ) ∧ 0 ≤ hr ∧
      ∀ v ∈ G.adj node,
        ((hr : ℝ) : WithTop ℝ) ≤ edge_weight G node v := by
  unfold heuristic
  rw [if_pos hmem]
  have hcoe : ∀ v ∈ G.adj node,
      edge_weight G node v = ((realCost G node v : ℝ) : WithTop ℝ) :=
    fun v hv => hW.edge_weight_eq hv
  split
  · refine ⟨0, by simp, le_refl 0, fun v hv => ?_⟩
    rw [hcoe v hv]
    exact_mod_cast hW.realCost_nonneg hv
  · cases hA : G.adj node with
    | nil =>
      refine ⟨0, ?_, le_refl 0, fun v hv => ?_⟩
      · simp
      · simp at hv
    | cons a l =>
      rw [List.map_cons]
      have hmmem := foldl_min_mem (edge_weight G node a)
        (l.map fun neighbor => edge_weight G node neighbor)
      rw [← List.map_cons] at hmmem
      obtain ⟨v0, hv0, hv0w⟩ := List.mem_map.mp hmmem
      have hv0' : v0 ∈ G.adj node := hA ▸ hv0
      refine ⟨realCost G node v0, ?_, hW.realCost_nonneg hv0', fun v hv => ?_⟩
      · show some ((l.map fun neighbor => edge_weight G node neighbor).foldl
            min (edge_weight G node a)) =
          some ((realCost G node v0 : ℝ) : WithTop ℝ)
        rw [← hv0w, hcoe v0 hv0']
      · rw [← hcoe v0 hv0', hv0w]
        refine foldl_min_le _ _ _ ?_
        rw [← List.map_cons]
        exact List.mem_map.mpr ⟨v, hv, rfl⟩

/-- Convenient form: the heuristic value as a `WithTop ℝ` via a default. -/
noncomputable def hval (G : Graph) (n : Node) : WithTop ℝ :=
  (heuristic n G).getD 0

theorem hval_eq {G : Graph} {n : Node} {h : WithTop ℝ}
    (hh : heuristic n G = some h) : hval G n = h := by
  unfold hval
  rw [hh]
  rfl

/-- One-edge consistency of the heuristic: `h(u) ≤ c(u,v) + h(v)`. -/
theorem hval_consistent {G : Graph} (hW : WeightsOK G) {u v : Node}
    (hu : u ∈ G.nodes) (hv : v ∈ G.nodes) (hadj : v ∈ G.adj u) :
    hval G u ≤ ((realCost G u v : ℝ) : WithTop ℝ) + hval G v := by
  obtain ⟨hru, hhu, -, hbound⟩ := heuristic_real hW hu
  obtain ⟨hrv, hhv, hrv0, -⟩ := heuristic_real hW hv
  rw [hval_eq hhu, hval_eq hhv]
  have h1 : ((hru : ℝ) : WithTop ℝ) ≤ ((realCost G u v : ℝ) : WithTop ℝ) := by
    rw [← hW.edge_weight_eq hadj]
    exact hbound v hadj
  calc ((hru : ℝ) : WithTop ℝ) ≤ ((realCost G u v : ℝ) : WithTop ℝ) := h1
    _ ≤ ((realCost G u v : ℝ) : WithTop ℝ) + ((hrv : ℝ) : WithTop ℝ) := by
        refine le_add_of_nonneg_right ?_
        exact_mod_cast hrv0

/-- Telescoped consistency along a usable path. -/
theorem hval_telescope {G : Graph} (hW : WeightsOK G) (hC : AdjClosed G) :
    ∀ (p : List Node) (a b : Node), (a :: p).Chain' (finStep G) →
      (a :: p).getLast? = some b → a ∈ G.nodes →
      hval G a ≤ ((pathCost G (a :: p) : ℝ) : WithTop ℝ) + hval G b
  | [], a, b, _, hb, _ => by
    obtain rfl : a = b := by simpa using hb
    simp [pathCost_single]
  | y :: rest, a, b, hchain, hb, hmem => by
    rw [List.chain'_cons] at hchain
    have hyadj : y ∈ G.adj a := hchain.1.1
    have hymem : y ∈ G.nodes := hC a y hyadj
    have hb' : (y :: rest).getLast? = some b := by
      rwa [List.getLast?_cons_cons] at hb
    have ih := hval_telescope hW hC rest y b hchain.2 hb' hymem
    have h1 := hval_consistent hW hmem hymem hyadj
    calc hval G a ≤ ((realCost G a y : ℝ) : WithTop ℝ) + hval G y := h1
      _ ≤ ((realCost G a y : ℝ) : WithTop ℝ) +
          (((pathCost G (y :: rest) : ℝ) : WithTop ℝ) + hval G b) := by
          exact add_le_add_left ih _
      _ = ((pathCost G (a :: y :: rest) : ℝ) : WithTop ℝ) + hval G b := by
          rw [pathCost_cons_cons, ← add_assoc]
          congr 1

/-! ## The exactness invariant -/

theorem entryLe_est {a b : Entry} (h : entryLe a b) : a.est ≤ b.est := by
  rcases h with h | ⟨h, -⟩
  · exact le_of_lt h
  · exact le_of_eq h

theorem coe_add_lt_cancel {a b : ℝ} {h : WithTop ℝ}
    (hlt : ((a : ℝ) : WithTop ℝ) + h < ((b : ℝ) : WithTop ℝ) + h) :
    a < b := by
  cases h with
  | top => simp at hlt
  | coe r =>
    rw [← WithTop.coe_add, ← WithTop.coe_add, WithTop.coe_lt_coe] at hlt
    linarith

theorem coe_add_le_cancel {a b : ℝ} {r : ℝ}
    (hle : ((a : ℝ) : WithTop ℝ) + ((r : ℝ) : WithTop ℝ) ≤
      ((b : ℝ) : WithTop ℝ) + ((r : ℝ) : WithTop ℝ)) : a ≤ b := by
  rw [← WithTop.coe_add, ← WithTop.coe_add, WithTop.coe_le_coe] at hle
  linarith

/-- All nodes of a usable chain from a graph node are graph nodes. -/
theorem chain_nodes {G : Graph} (hC : AdjClosed G) :
    ∀ (p : List Node) (a : Node), (a :: p).Chain' (finStep G) →
      a ∈ G.nodes → ∀ x ∈ a :: p, x ∈ G.nodes
  | [], a, _, ha, x, hx => by
    obtain rfl : x = a := by simpa using hx
    exact ha
  | y :: rest, a, hchain, ha, x, hx => by
    rw [List.chain'_cons] at hchain
    have hy : y ∈ G.nodes := hC a y hchain.1.1
    rcases List.mem_cons.mp hx with rfl | hx
    · exact ha
    · exact chain_nodes hC rest y hchain.2 hy x hx

/-- The Dijkstra-style exactness invariant of the search loop (under
well-formed weights): entries carry their `g + h` estimate; recorded costs
of unvisited nodes are still represented in the queue; visited nodes are
settled at optimal cost; edges out of visited non-disease nodes are
relaxed; seeds cost at most `0`. -/
structure XInv (G : Graph) (symptoms : List Node) (queue : List Entry)
    (costs : Costs) (visited : List Node) : Prop where
  entry_node : ∀ e ∈ queue, e.node ∈ G.nodes
  entry_est : ∀ e ∈ queue, ∃ hv, heuristic e.node G = some hv ∧
    e.est = ((e.g : ℝ) : WithTop ℝ) + hv
  entry_ge : ∀ e ∈ queue, ∃ c, costs e.node = some c ∧ c ≤ e.g
  frontier : ∀ n, n ∉ visited → ∀ c, costs n = some c →
    ∃ f ∈ queue, f.node = n ∧ f.g = c
  settled : ∀ n ∈ visited, ∃ c, costs n = some c ∧
    ∀ p, IsSinkPath G symptoms p n → c ≤ pathCost G p
  relaxed : ∀ x ∈ visited, G.group x ≠ some "disease" →
    ∀ m ∈ G.adj x, ∃ cx cm, costs x = some cx ∧ costs m = some cm ∧
      cm ≤ cx + realCost G x m
  seeds_cost : ∀ s ∈ symptoms, ∃ c, costs s = some c ∧ c ≤ 0

/-- At the moment an unvisited node is popped, its recorded cost equals the
popped entry's accumulated cost (so the disease-branch overwrite
`costs[node] = current_cost` changes nothing). -/
theorem pop_cost_eq {G : Graph} {symptoms : List Node} {queue rest : List Entry}
    {costs : Costs} {visited : List Node} {e : Entry}
    (hinv : XInv G symptoms queue costs visited)
    (hpop : popMin queue = some (e, rest)) (hnv : e.node ∉ visited) :
    costs e.node = some e.g := by
  obtain ⟨hm, -, hmin, -⟩ := popMin_spec hpop
  obtain ⟨c, hc, hcle⟩ := hinv.entry_ge e hm
  obtain ⟨f, hf, hfn, hfg⟩ := hinv.frontier e.node hnv c hc
  have hle := hmin f hf
  obtain ⟨hv, hh, hest⟩ := hinv.entry_est e hm
  obtain ⟨hv', hh', hest'⟩ := hinv.entry_est f hf
  rw [hfn, hh, Option.some.injEq] at hh'
  rw [← hh'] at hest'
  rcases hle with hlt | ⟨-, hrest⟩
  · exfalso
    rw [hest, hest', hfg] at hlt
    exact absurd hcle (not_le.mpr (coe_add_lt_cancel hlt))
  · rcases hrest with hnlt | ⟨-, hgle⟩
    · exact absurd (hfn ▸ hnlt) (lt_irrefl _)
    · rw [hc]
      rw [hfg] at hgle
      exact congrArg some (le_antisymm hcle hgle)

/-- Any sink path to an unvisited target is covered by a queue entry whose
estimate is at most the path's cost plus the target's heuristic. -/
theorem XInv.cover {G : Graph} {symptoms : List Node} {queue : List Entry}
    {costs : Costs} {visited : List Node} (hW : WeightsOK G)
    (hC : AdjClosed G) (hseeds : ∀ s ∈ symptoms, s ∈ G.nodes)
    (hinv : XInv G symptoms queue costs visited) (p : List Node) (d : Node)
    (hp : IsSinkPath G symptoms p d) (hd : d ∉ visited) :
    ∃ f ∈ queue, f.est ≤ ((pathCost G p : ℝ) : WithTop ℝ) + hval G d := by
  induction p using List.reverseRecOn generalizing d with
  | nil =>
    obtain ⟨⟨-, ⟨s, -, hhead⟩, -⟩, -⟩ := hp
    simp at hhead
  | append_singleton l x ih =>
    obtain ⟨⟨hchain, ⟨s, hs, hhead⟩, hlast⟩, hdrop⟩ := hp
    obtain rfl : x = d := by
      rw [List.getLast?_concat] at hlast
      exact (Option.some.injEq _ _).mp hlast
    match l, hchain, hhead, hdrop with
    | [], _, hhead, _ =>
      have hxs : x = s := by simpa using hhead
      obtain ⟨c, hc, hc0⟩ := hinv.seeds_cost s hs
      obtain ⟨f, hf, hfn, hfg⟩ := hinv.frontier x hd c (by rw [hxs]; exact hc)
      obtain ⟨hv, hh, hest⟩ := hinv.entry_est f hf
      refine ⟨f, hf, ?_⟩
      rw [hest, hfg, hval_eq (hfn ▸ hh)]
      simp only [List.nil_append, pathCost_single]
      exact add_le_add_right (by exact_mod_cast hc0) hv
    | y :: l', hchain, hhead, hdrop =>
      have hne : y :: l' ≠ [] := by simp
      rw [List.head?_append_of_ne_nil _ hne] at hhead
      rw [List.chain'_append] at hchain
      obtain ⟨hchain', hsing, hglue⟩ := hchain
      have hu := List.getLast?_eq_getLast (y :: l') hne
      set u := (y :: l').getLast hne with hu_def
      have hstep : finStep G u x := by
        refine hglue u ?_ x ?_
        · rw [hu]
          rfl
        · rfl
      have hpl : IsSinkPath G symptoms (y :: l') u := by
        refine ⟨⟨hchain', ⟨s, hs, hhead⟩, hu⟩, fun n hn => ?_⟩
        refine hdrop n ?_
        rw [List.dropLast_concat]
        exact List.dropLast_subset _ hn
      have hund : G.group u ≠ some "disease" := by
        refine hdrop u ?_
        rw [List.dropLast_concat]
        exact List.getLast_mem hne
      have hymem : y ∈ G.nodes := by
        have hys : y = s := by simpa using hhead
        rw [hys]
        exact hseeds s hs
      have humem : u ∈ G.nodes := by
        refine chain_nodes hC l' y hchain' hymem u ?_
        rw [hu_def]
        exact List.getLast_mem hne
      have hxmem : x ∈ G.nodes := hC u x hstep.1
      have hcost := pathCost_concat G x u (y :: l') hu
      by_cases hvis : u ∈ visited
      · obtain ⟨cu, hcu, hcu_min⟩ := hinv.settled u hvis
        obtain ⟨cx, cm, hcx, hcm, hrel⟩ := hinv.relaxed u hvis hund x hstep.1
        rw [hcu] at hcx
        obtain rfl : cx = cu := (Option.some.injEq _ _).mp hcx.symm
        obtain ⟨f, hf, hfn, hfg⟩ := hinv.frontier x hd cm hcm
        obtain ⟨hv, hh, hest⟩ := hinv.entry_est f hf
        refine ⟨f, hf, ?_⟩
        rw [hest, hfg, hval_eq (hfn ▸ hh)]
        refine add_le_add_right ?_ hv
        have hbound : cm ≤ pathCost G (y :: l' ++ [x]) := by
          rw [hcost]
          have := hcu_min (y :: l') hpl
          linarith
        exact_mod_cast hbound
      · obtain ⟨f, hf, hfle⟩ := ih u hpl hvis
        refine ⟨f, hf, hfle.trans ?_⟩
        have hcons := hval_consistent hW humem hxmem hstep.1
        calc ((pathCost G (y :: l') : ℝ) : WithTop ℝ) + hval G u
            ≤ ((pathCost G (y :: l') : ℝ) : WithTop ℝ) +
              (((realCost G u x : ℝ) : WithTop ℝ) + hval G x) :=
              add_le_add_left hcons _
          _ = ((pathCost G (y :: l' ++ [x]) : ℝ) : WithTop ℝ) + hval G x := by
              rw [hcost, ← add_assoc]
              congr 1

/-- The popped accumulated cost of an unvisited node is at most the cost of
every sink path to it (the A* optimality step, using consistency of the
heuristic under weights in `(0,1]`). -/
theorem pop_optimal {G : Graph} {symptoms : List Node} {queue rest : List Entry}
    {costs : Costs} {visited : List Node} {e : Entry} (hW : WeightsOK G)
    (hC : AdjClosed G) (hseeds : ∀ s ∈ symptoms, s ∈ G.nodes)
    (hinv : XInv G symptoms queue costs visited)
    (hpop : popMin queue = some (e, rest)) (hnv : e.node ∉ visited) :
    ∀ p, IsSinkPath G symptoms p e.node → e.g ≤ pathCost G p := by
  intro p hp
  obtain ⟨hm, -, hmin, -⟩ := popMin_spec hpop
  have hmem := hinv.entry_node e hm
  obtain ⟨f, hf, hfle⟩ := XInv.cover hW hC hseeds hinv p e.node hp hnv
  have heest : e.est ≤ f.est := entryLe_est (hmin f hf)
  obtain ⟨hv, hh, hest⟩ := hinv.entry_est e hm
  obtain ⟨hr, hh', hr0, -⟩ := heuristic_real hW hmem
  rw [hh, Option.some.injEq] at hh'
  have hchain : ((e.g : ℝ) : WithTop ℝ) + ((hr : ℝ) : WithTop ℝ) ≤
      ((pathCost G p : ℝ) : WithTop ℝ) + ((hr : ℝ) : WithTop ℝ) := by
    have h1 := heest.trans hfle
    rw [hest, hh', hval_eq hh, hh'] at h1
    exact h1
  exact coe_add_le_cancel hchain

/-! ## Preservation of the exactness invariant through relaxation -/

theorem improves_some {a old : ℝ} (h : improves a (some old)) : a < old := h

theorem heuristic_some_mem {G : Graph} {n : Node} {h : WithTop ℝ}
    (hh : heuristic n G = some h) : n ∈ G.nodes := by
  by_contra hmem
  unfold heuristic at hh
  rw [if_neg hmem] at hh
  exact absurd hh (by simp)

/-- The mid-relaxation invariant: all fields of `XInv` relative to the
already-extended visited set, except that the edges from the node being
expanded to the still-pending neighbors `ns` are not yet relaxed. -/
structure RInv (G : Graph) (symptoms : List Node) (node : Node)
    (ns : List Node) (queue : List Entry) (costs : Costs)
    (visited : List Node) : Prop where
  entry_node : ∀ e ∈ queue, e.node ∈ G.nodes
  entry_est : ∀ e ∈ queue, ∃ hv, heuristic e.node G = some hv ∧
    e.est = ((e.g : ℝ) : WithTop ℝ) + hv
  entry_ge : ∀ e ∈ queue, ∃ c, costs e.node = some c ∧ c ≤ e.g
  frontier : ∀ n, n ∉ visited → ∀ c, costs n = some c →
    ∃ f ∈ queue, f.node = n ∧ f.g = c
  settled : ∀ n ∈ visited, ∃ c, costs n = some c ∧
    ∀ p, IsSinkPath G symptoms p n → c ≤ pathCost G p
  relaxed : ∀ x ∈ visited, G.group x ≠ some "disease" →
    ∀ m ∈ G.adj x, (x = node → m ∉ ns) →
    ∃ cx cm, costs x = some cx ∧ costs m = some cm ∧
      cm ≤ cx + realCost G x m
  seeds_cost : ∀ s ∈ symptoms, ∃ c, costs s = some c ∧ c ≤ 0

/-- Relaxing the pending neighbors preserves the invariant and discharges
the pending obligations. -/
theorem relax_preserves {G : Graph} {symptoms : List Node}
    (hW : WeightsOK G) {node : Node} {g : ℝ} {visited : List Node}
    (hnvis : node ∈ visited) (hnondis : G.group node ≠ some "disease")
    (hpath : ∃ p, IsSinkPath G symptoms p node ∧ pathCost G p = g) :
    ∀ (ns : List Node) (queue queue' : List Entry) (costs costs' : Costs),
      (∀ m ∈ ns, m ∈ G.adj node) →
      costs node = some g →
      RInv G symptoms node ns queue costs visited →
      relaxNbrs G node g ns queue costs visited = some (queue', costs') →
      RInv G symptoms node [] queue' costs' visited
  | [], queue, queue', costs, costs', _, _, hinv, hrun => by
    rw [relaxNbrs, Option.some.injEq] at hrun
    obtain ⟨rfl, rfl⟩ := Prod.mk.injEq _ _ _ _ ▸ hrun
    exact hinv
  | neighbor :: rest, queue, queue', costs, costs', hsub, hgc, hinv, hrun => by
    have hadjn : neighbor ∈ G.adj node := hsub neighbor (List.mem_cons_self _ _)
    have hsub' : ∀ m ∈ rest, m ∈ G.adj node :=
      fun m hm => hsub m (List.mem_cons_of_mem _ hm)
    have hrc0 : 0 ≤ realCost G node neighbor := hW.realCost_nonneg hadjn
    rw [relaxNbrs] at hrun
    split at hrun
    · -- the neighbor is already visited: its settled bound discharges the edge
      rename_i hv
      refine relax_preserves hW hnvis hnondis hpath rest queue queue' costs
        costs' hsub' hgc ?_ hrun
      obtain ⟨p₀, hp₀, hc₀⟩ := hpath
      have hfin : finStep G node neighbor := hW.finStep hadjn
      have hext := hp₀.extend hnondis hfin
      obtain ⟨cn, hcn, hcn_min⟩ := hinv.settled neighbor hv
      refine ⟨hinv.entry_node, hinv.entry_est, hinv.entry_ge, hinv.frontier,
        hinv.settled, ?_, hinv.seeds_cost⟩
      intro x hx hxd m hm hexc
      by_cases hxm : x = node ∧ m = neighbor
      · obtain ⟨rfl, rfl⟩ := hxm
        refine ⟨g, cn, hgc, hcn, ?_⟩
        have := hcn_min (p₀ ++ [m]) hext.1
        rw [hext.2, hc₀] at this
        linarith
      · refine hinv.relaxed x hx hxd m hm ?_
        intro hxnode hmns
        rcases List.mem_cons.mp hmns with rfl | hmrest
        · exact hxm ⟨hxnode, rfl⟩
        · exact hexc hxnode hmrest
    · split at hrun
      · -- impossible: under WeightsOK the edge has finite cost
        rename_i hv hew
        exact absurd hew (hW.finStep hadjn).2
      · rename_i hv cost hew
        have hrc : realCost G node neighbor = cost := by
          have h1 := edge_weight_of_ne_top (G := G) (u := node)
            (v := neighbor) (by simp [hew])
          rw [hew] at h1
          have h2 : ((cost : ℝ) : WithTop ℝ) =
              ((realCost G node neighbor : ℝ) : WithTop ℝ) := h1
          exact (WithTop.coe_inj.mp h2).symm
        have hnm : neighbor ∉ visited := by
          rename_i hnv'
          exact hnv'
        have hnodene : node ≠ neighbor := fun h => hnm (h ▸ hnvis)
        simp only at hrun
        split at hrun
        · rename_i himp
          split at hrun
          · exact absurd hrun (by simp)
          · rename_i h hh
            have hmemn : neighbor ∈ G.nodes := heuristic_some_mem hh
            -- the push step: update the costs and queue, re-establish RInv
            refine relax_preserves hW hnvis hnondis hpath rest _ queue' _
              costs' hsub' ?_ ?_ hrun
            · unfold setCost
              rw [if_neg hnodene]
              exact hgc
            · constructor
              · intro e he
                rcases List.mem_append.mp he with he | he
                · exact hinv.entry_node e he
                · rw [List.mem_singleton.mp he]
                  exact hmemn
              · intro e he
                rcases List.mem_append.mp he with he | he
                · exact hinv.entry_est e he
                · rw [List.mem_singleton.mp he]
                  exact ⟨h, hh, rfl⟩
              · intro e he
                rcases List.mem_append.mp he with he | he
                · obtain ⟨c, hc, hcle⟩ := hinv.entry_ge e he
                  unfold setCost
                  by_cases hen : e.node = neighbor
                  · rw [if_pos hen]
                    refine ⟨g + cost, rfl, ?_⟩
                    have hc' : costs neighbor = some c := hen ▸ hc
                    have himp' : g + cost < c :=
                      improves_some (hc' ▸ himp)
                    linarith
                  · rw [if_neg hen]
                    exact ⟨c, hc, hcle⟩
                · rw [List.mem_singleton.mp he]
                  refine ⟨g + cost, ?_, le_refl _⟩
                  unfold setCost
                  rw [if_pos rfl]
              · intro n hn c hc
                unfold setCost at hc
                by_cases hnn : n = neighbor
                · rw [if_pos hnn] at hc
                  refine ⟨⟨((g + cost : ℝ) : WithTop ℝ) + h, neighbor,
                    g + cost⟩, List.mem_append_right _ (by simp), hnn.symm, ?_⟩
                  exact (Option.some.injEq _ _).mp hc
                · rw [if_neg hnn] at hc
                  obtain ⟨f, hf, hfn, hfg⟩ := hinv.frontier n hn c hc
                  exact ⟨f, List.mem_append_left _ hf, hfn, hfg⟩
              · intro n hn
                obtain ⟨c, hc, hbound⟩ := hinv.settled n hn
                refine ⟨c, ?_, hbound⟩
                unfold setCost
                rw [if_neg (fun h' : n = neighbor => hnm (by
                  rw [← h']
                  exact hn))]
                exact hc
              · intro x hx hxd m hm hexc
                have hxne : x ≠ neighbor := fun h' => hnm (h' ▸ hx)
                by_cases hxm : x = node ∧ m = neighbor
                · obtain ⟨rfl, rfl⟩ := hxm
                  refine ⟨g, g + cost, ?_, ?_, ?_⟩
                  · unfold setCost
                    rw [if_neg hnodene]
                    exact hgc
                  · unfold setCost
                    rw [if_pos rfl]
                  · rw [hrc]
                · obtain ⟨cx, cm, hcx, hcm, hbound⟩ :=
                    hinv.relaxed x hx hxd m hm (fun hxnode hmns => by
                      rcases List.mem_cons.mp hmns with rfl | hmrest
                      · exact hxm ⟨hxnode, rfl⟩
                      · exact hexc hxnode hmrest)
                  unfold setCost
                  rw [if_neg hxne]
                  by_cases hmn : m = neighbor
                  · rw [if_pos hmn]
                    refine ⟨cx, g + cost, hcx, rfl, ?_⟩
                    have hcm' : costs neighbor = some cm := hmn ▸ hcm
                    have himp' : g + cost < cm :=
                      improves_some (hcm' ▸ himp)
                    linarith
                  · rw [if_neg hmn]
                    exact ⟨cx, cm, hcx, hcm, hbound⟩
              · intro s hs
                obtain ⟨c, hc, hc0⟩ := hinv.seeds_cost s hs
                unfold setCost
                by_cases hsn : s = neighbor
                · rw [if_pos hsn]
                  refine ⟨g + cost, rfl, ?_⟩
                  have hc' : costs neighbor = some c := hsn ▸ hc
                  have himp' : g + cost < c :=
                    improves_some (hc' ▸ himp)
                  linarith
                · rw [if_neg hsn]
                  exact ⟨c, hc, hc0⟩
        · rename_i himp
          -- no improvement: the existing cost already satisfies the bound
          refine relax_preserves hW hnvis hnondis hpath rest queue queue'
            costs costs' hsub' hgc ?_ hrun
          have hsome : ∃ old, costs neighbor = some old ∧
              old ≤ g + cost := by
            unfold improves at himp
            match hcn : costs neighbor with
            | none =>
              rw [hcn] at himp
              exact absurd trivial himp
            | some old =>
              rw [hcn] at himp
              exact ⟨old, rfl, le_of_not_lt himp⟩
          obtain ⟨old, hold, holdle⟩ := hsome
          refine ⟨hinv.entry_node, hinv.entry_est, hinv.entry_ge,
            hinv.frontier, hinv.settled, ?_, hinv.seeds_cost⟩
          intro x hx hxd m hm hexc
          by_cases hxm : x = node ∧ m = neighbor
          · obtain ⟨rfl, rfl⟩ := hxm
            exact ⟨g, old, hgc, hold, by rw [hrc]; exact holdle⟩
          · refine hinv.relaxed x hx hxd m hm ?_
            intro hxnode hmns
            rcases List.mem_cons.mp hmns with rfl | hmrest
            · exact hxm ⟨hxnode, rfl⟩
            · exact hexc hxnode hmrest

/-! ## The exactness invariant holds after seeding and through the loop -/

theorem XInv_init {G : Graph} {symptoms : List Node} {q₀ : List Entry}
    {c₀ : Costs} (hseeds : ∀ s ∈ symptoms, s ∈ G.nodes)
    (hseed : seedQueue G symptoms [] (fun _ => none) = some (q₀, c₀)) :
    XInv G symptoms q₀ c₀ [] := by
  have hcosts := seedQueue_costs symptoms [] _ q₀ c₀ hseed
  have hmem := seedQueue_mem symptoms [] _ q₀ c₀ hseed
  constructor
  · intro e he
    rcases (hmem e).mp he with he' | ⟨s, hs, -, hn, -⟩
    · simp at he'
    · exact hn ▸ hseeds s hs
  · intro e he
    rcases (hmem e).mp he with he' | ⟨s, hs, hh, hn, hg⟩
    · simp at he'
    · refine ⟨e.est, by rw [hn]; exact hh, ?_⟩
      rw [hg]
      simp
  · intro e he
    rcases (hmem e).mp he with he' | ⟨s, hs, hh, hn, hg⟩
    · simp at he'
    · rw [hcosts e.node, if_pos (hn ▸ hs), hg]
      exact ⟨0, rfl, le_refl 0⟩
  · intro n _ c hc
    rw [hcosts n] at hc
    by_cases hn : n ∈ symptoms
    · rw [if_pos hn] at hc
      obtain rfl : (0 : ℝ) = c := (Option.some.injEq _ _).mp hc
      obtain ⟨hv, hh⟩ := heuristic_isSome (hseeds n hn)
      refine ⟨⟨hv, n, 0⟩, ?_, rfl, rfl⟩
      exact (hmem _).mpr (Or.inr ⟨n, hn, hh, rfl, rfl⟩)
    · rw [if_neg hn] at hc
      exact absurd hc (by simp)
  · intro n hn
    simp at hn
  · intro x hx
    simp at hx
  · intro s hs
    rw [hcosts s, if_pos hs]
    exact ⟨0, rfl, le_refl 0⟩

/-- The master exactness run: with enough fuel and both invariants, every
cost in the final table is the minimum sink-path cost from the seed set. -/
theorem aStarLoop_exact {G : Graph} {symptoms : List Node} (hW : WeightsOK G)
    (hC : AdjClosed G) (hseeds : ∀ s ∈ symptoms, s ∈ G.nodes) :
    ∀ (fuel : Nat) (queue : List Entry) (costs : Costs)
      (visited : List Node) (final : Costs),
      phi G queue visited < fuel →
      SInv G symptoms queue costs →
      XInv G symptoms queue costs visited →
      aStarLoop G fuel queue costs visited = some final →
      ∀ n c, final n = some c →
        (∃ p, IsSinkPath G symptoms p n ∧ pathCost G p = c) ∧
        ∀ p, IsSinkPath G symptoms p n → c ≤ pathCost G p := by
  intro fuel
  induction fuel with
  | zero =>
    intro queue costs visited final hphi
    omega
  | succ fuel ih =>
    intro queue costs visited final hphi hs hx hrun
    rw [aStarLoop] at hrun
    split at hrun
    · rename_i hpop
      obtain rfl : queue = [] := popMin_eq_none.mp hpop
      rw [Option.some.injEq] at hrun
      subst hrun
      intro n c hc
      refine ⟨hs.costs_path n c hc, ?_⟩
      by_cases hv : n ∈ visited
      · obtain ⟨c', hc', hbound⟩ := hx.settled n hv
        rw [hc] at hc'
        obtain rfl : c = c' := (Option.some.injEq _ _).mp hc'
        exact hbound
      · obtain ⟨f, hf, -, -⟩ := hx.frontier n hv c hc
        simp at hf
    · rename_i pair e rest hpop
      obtain ⟨hm, hperm, hmin, hr⟩ := popMin_spec hpop
      have hlen := popMin_length hpop
      have hrest_sub : ∀ x ∈ rest, x ∈ queue := fun x hx' =>
        hperm.symm.subset (List.mem_cons_of_mem _ hx')
      split at hrun
      · -- stale pop
        rename_i hv
        refine ih rest costs visited final ?_ (hs.sub hrest_sub) ?_ hrun
        · unfold phi at hphi ⊢
          omega
        · refine ⟨fun f hf => hx.entry_node f (hrest_sub f hf),
            fun f hf => hx.entry_est f (hrest_sub f hf),
            fun f hf => hx.entry_ge f (hrest_sub f hf), ?_,
            hx.settled, hx.relaxed, hx.seeds_cost⟩
          intro n hn c hc
          obtain ⟨f, hf, hfn, hfg⟩ := hx.frontier n hn c hc
          have hfe : f ≠ e := by
            intro h'
            refine hn ?_
            rw [← hfn, h']
            exact hv
          exact ⟨f, hr ▸ (List.mem_erase_of_ne hfe).mpr hf, hfn, hfg⟩
      · rename_i hnv
        split at hrun
        · rename_i hmem
          have hgc := pop_cost_eq hx hpop hnv
          have hopt := pop_optimal hW hC hseeds hx hpop hnv
          have hfrontier' : ∀ n, n ∉ e.node :: visited → ∀ c,
              costs n = some c → ∃ f ∈ rest, f.node = n ∧ f.g = c := by
            intro n hn c hc
            have hn1 : n ∉ visited := fun h' => hn (List.mem_cons_of_mem _ h')
            have hn2 : n ≠ e.node := fun h' => hn (h' ▸ List.mem_cons_self _ _)
            obtain ⟨f, hf, hfn, hfg⟩ := hx.frontier n hn1 c hc
            have hfe : f ≠ e := fun h' => hn2 (by rw [← hfn, h'])
            exact ⟨f, hr ▸ (List.mem_erase_of_ne hfe).mpr hf, hfn, hfg⟩
          have hsettled' : ∀ n ∈ e.node :: visited, ∃ c, costs n = some c ∧
              ∀ p, IsSinkPath G symptoms p n → c ≤ pathCost G p := by
            intro n hn
            rcases List.mem_cons.mp hn with rfl | hn
            · exact ⟨e.g, hgc, hopt⟩
            · exact hx.settled n hn
          split at hrun
          · -- disease: record and stop
            rename_i hdis
            have hceq : setCost costs e.node e.g = costs := by
              funext m
              unfold setCost
              by_cases hme : m = e.node
              · rw [if_pos hme, hme]
                exact hgc.symm
              · rw [if_neg hme]
            rw [hceq] at hrun
            refine ih rest costs (e.node :: visited) final ?_
              (hs.sub hrest_sub) ?_ hrun
            · have hds := degSum_mono G e.node visited
              unfold phi at hphi ⊢
              omega
            · refine ⟨fun f hf => hx.entry_node f (hrest_sub f hf),
                fun f hf => hx.entry_est f (hrest_sub f hf),
                fun f hf => hx.entry_ge f (hrest_sub f hf),
                hfrontier', hsettled', ?_, hx.seeds_cost⟩
              intro x hx' hxd m hm
              rcases List.mem_cons.mp hx' with rfl | hx'
              · exact absurd hdis hxd
              · exact hx.relaxed x hx' hxd m hm
          · -- non-disease: relax the neighbors
            rename_i hdis
            split at hrun
            · exact absurd hrun (by simp)
            · rename_i result queue' costs' hrelax
              obtain ⟨p₀, hp₀, hc₀⟩ := hs.queue_path e hm
              have hrinv0 : RInv G symptoms e.node (G.adj e.node) rest costs
                  (e.node :: visited) := by
                refine ⟨fun f hf => hx.entry_node f (hrest_sub f hf),
                  fun f hf => hx.entry_est f (hrest_sub f hf),
                  fun f hf => hx.entry_ge f (hrest_sub f hf),
                  hfrontier', hsettled', ?_, hx.seeds_cost⟩
                intro x hx' hxd m hm hexc
                rcases List.mem_cons.mp hx' with rfl | hx'
                · exact absurd hm (hexc rfl)
                · exact hx.relaxed x hx' hxd m hm
              have hrinv := relax_preserves hW (List.mem_cons_self _ _)
                hdis ⟨p₀, hp₀, hc₀⟩ (G.adj e.node) rest queue' costs costs'
                (fun m hm => hm) hgc hrinv0 hrelax
              have hxinv' : XInv G symptoms queue' costs'
                  (e.node :: visited) :=
                ⟨hrinv.entry_node, hrinv.entry_est, hrinv.entry_ge,
                  hrinv.frontier, hrinv.settled,
                  fun x hx' hxd m hm =>
                    hrinv.relaxed x hx' hxd m hm (fun _ => List.not_mem_nil m),
                  hrinv.seeds_cost⟩
              have hsinv' : SInv G symptoms queue' costs' :=
                SInv.relax hp₀ hc₀ hdis (G.adj e.node) rest costs
                  (e.node :: visited) queue' costs' (fun x hx' => hx')
                  (hs.sub hrest_sub) hrelax
              refine ih queue' costs' (e.node :: visited) final ?_
                hsinv' hxinv' hrun
              have hq'len := relaxNbrs_length G e.node e.g (G.adj e.node)
                rest costs (e.node :: visited) queue' costs' hrelax
              have hds := degSum_visit G e.node visited hmem hnv
              unfold phi at hphi ⊢
              omega
        · exact absurd hrun (by simp)

/-! ## C1 (amended): returned costs are minimal over disease-free paths -/

/-- C1, amended: for a graph with all edge weights in `(0,1]` (and
neighbor lists inside the node table, as in networkx) and a non-empty seed
list of graph nodes, every returned `(disease, cost)` pair's cost equals
the minimum, over paths from some seed symptom to that disease **whose
every node before the final one is a non-disease node** (diseases are
sinks: the search never relaxes outward from a disease), of the sum of
per-edge costs `-ln w`; no such disease-free finite-cost path has a
strictly smaller cost, and the minimum is attained. -/
theorem C1_sink_path_minimality (G : Graph) (symptoms : List Node)
    (r : List (Node × ℝ)) (hW : WeightsOK G) (hC : AdjClosed G)
    (hne : symptoms ≠ []) (hseeds : ∀ s ∈ symptoms, s ∈ G.nodes)
    (hrun : a_star_search G symptoms = some r) :
    ∀ d c, (d, c) ∈ r →
      (∃ p, IsSinkPath G symptoms p d ∧ pathCost G p = c) ∧
      ∀ p, IsSinkPath G symptoms p d → c ≤ pathCost G p := by
  intro d c hdc
  unfold a_star_search at hrun
  split at hrun
  · exact absurd hrun (by simp)
  · rename_i res q₀ c₀ hseed
    split at hrun
    · exact absurd hrun (by simp)
    · rename_i opt final hloop
      rw [Option.some.injEq] at hrun
      rw [← hrun, List.mem_mergeSort] at hdc
      unfold diseaseScores at hdc
      obtain ⟨node, hnode, hsome⟩ := List.mem_filterMap.mp hdc
      by_cases hd : G.group node = some "disease"
      · rw [if_pos hd] at hsome
        obtain ⟨cv, hcv, heq⟩ := Option.map_eq_some'.mp hsome
        obtain ⟨rfl, rfl⟩ := Prod.mk.injEq _ _ _ _ ▸ heq
        have hsinv : SInv G symptoms q₀ c₀ :=
          seedQueue_sound G symptoms symptoms [] _ q₀ c₀
            (fun x hx => hx) ⟨by simp, by simp⟩ hseed
        have hxinv := XInv_init hseeds hseed
        have hphi : phi G q₀ [] < searchFuel G symptoms := by
          unfold phi searchFuel
          rw [degSum_nil, seedQueue_length symptoms [] _ q₀ c₀ hseed]
          simp
        exact aStarLoop_exact hW hC hseeds _ q₀ c₀ [] final hphi hsinv
          hxinv hloop node cv hcv
      · rw [if_neg hd] at hsome
        exact absurd hsome (by simp)

/-! ## The counterexample graph for the claim as stated

Two diseases share the symptom `s2`: the globally cheapest path to `d2`
goes through the other disease `d1` (`s — d1 — s2 — d2`, cost `3`), but the
search stops at `d1`, so `d2` is reported with the direct-edge cost `4`. -/

noncomputable def Gc : Graph where
  nodes := ["s", "d1", "s2", "d2"]
  group n := if n = "s" ∨ n = "s2" then some "symptom"
    else if n = "d1" ∨ n = "d2" then some "disease" else none
  adj n :=
    if n = "s" then ["d1", "d2"]
    else if n = "d1" then ["s", "s2"]
    else if n = "s2" then ["d1", "d2"]
    else if n = "d2" then ["s", "s2"] else []
  weight u v :=
    if (u = "s" ∧ v = "d1") ∨ (u = "d1" ∧ v = "s") then
      some (Real.exp (-1))
    else if (u = "d1" ∧ v = "s2") ∨ (u = "s2" ∧ v = "d1") then
      some (Real.exp (-1))
    else if (u = "s2" ∧ v = "d2") ∨ (u = "d2" ∧ v = "s2") then
      some (Real.exp (-1))
    else if (u = "s" ∧ v = "d2") ∨ (u = "d2" ∧ v = "s") then
      some (Real.exp (-4))
    else none

theorem exp_weight_cost {G : Graph} {u v : Node} {w : ℝ}
    (hw : G.weight u v = some (Real.exp (-w))) :
    edge_weight G u v = ((w : ℝ) : WithTop ℝ) ∧ realCost G u v = w := by
  constructor
  · unfold edge_weight
    rw [hw]
    simp only [Option.getD_some]
    rw [if_neg (not_le.mpr (Real.exp_pos _))]
    rw [Real.log_exp]
    norm_num
  · unfold realCost
    rw [hw]
    simp only [Option.getD_some]
    rw [Real.log_exp]
    norm_num

theorem Gc_w_s_d1 : Gc.weight "s" "d1" = some (Real.exp (-1)) := by
  simp [Gc]

theorem Gc_w_s_d2 : Gc.weight "s" "d2" = some (Real.exp (-4)) := by
  simp [Gc]

theorem Gc_w_d1_s2 : Gc.weight "d1" "s2" = some (Real.exp (-1)) := by
  simp [Gc]

theorem Gc_w_s2_d2 : Gc.weight "s2" "d2" = some (Real.exp (-1)) := by
  simp [Gc]

theorem Gc_ew_s_d1 : edge_weight Gc "s" "d1" = ((1 : ℝ) : WithTop ℝ) :=
  (exp_weight_cost Gc_w_s_d1).1

theorem Gc_ew_s_d2 : edge_weight Gc "s" "d2" = ((4 : ℝ) : WithTop ℝ) :=
  (exp_weight_cost Gc_w_s_d2).1

theorem Gc_rc_s_d1 : realCost Gc "s" "d1" = 1 :=
  (exp_weight_cost Gc_w_s_d1).2

theorem Gc_rc_s_d2 : realCost Gc "s" "d2" = 4 :=
  (exp_weight_cost Gc_w_s_d2).2

theorem Gc_rc_d1_s2 : realCost Gc "d1" "s2" = 1 :=
  (exp_weight_cost Gc_w_d1_s2).2

theorem Gc_rc_s2_d2 : realCost Gc "s2" "d2" = 1 :=
  (exp_weight_cost Gc_w_s2_d2).2

theorem Gc_h_s : heuristic "s" Gc = some ((1 : ℝ) : WithTop ℝ) := by
  unfold heuristic
  rw [if_pos (by simp [Gc]), if_neg (by simp [Gc])]
  have hadj : Gc.adj "s" = ["d1", "d2"] := rfl
  rw [hadj, List.map_cons, List.map_cons, List.map_nil]
  show some (List.foldl min (edge_weight Gc "s" "d1")
    [edge_weight Gc "s" "d2"]) = _
  rw [Gc_ew_s_d1, Gc_ew_s_d2]
  simp only [List.foldl_cons, List.foldl_nil]
  rw [min_eq_left (by
    rw [WithTop.coe_le_coe]
    norm_num)]

theorem Gc_h_d1 : heuristic "d1" Gc = some 0 := by
  unfold heuristic
  rw [if_pos (by simp [Gc]), if_pos (by simp [Gc])]

theorem Gc_h_d2 : heuristic "d2" Gc = some 0 := by
  unfold heuristic
  rw [if_pos (by simp [Gc]), if_pos (by simp [Gc])]

/-! ## Step equations for concrete relaxation runs -/

theorem relaxNbrs_nil (G : Graph) (node : Node) (g : ℝ)
    (queue : List Entry) (costs : Costs) (visited : List Node) :
    relaxNbrs G node g [] queue costs visited = some (queue, costs) := by
  rw [relaxNbrs]

theorem relaxNbrs_cons_push (G : Graph) (node neighbor : Node) (g cost : ℝ)
    (rest : List Node) (queue : List Entry) (costs : Costs)
    (visited : List Node) (h : WithTop ℝ)
    (hv : neighbor ∉ visited)
    (hew : edge_weight G node neighbor = ((cost : ℝ) : WithTop ℝ))
    (himp : improves (g + cost) (costs neighbor))
    (hh : heuristic neighbor G = some h) :
    relaxNbrs G node g (neighbor :: rest) queue costs visited =
      relaxNbrs G node g rest
        (queue ++ [⟨((g + cost : ℝ) : WithTop ℝ) + h, neighbor, g + cost⟩])
        (setCost costs neighbor (g + cost)) visited := by
  rw [relaxNbrs, if_neg hv]
  split
  · rename_i heq
    rw [hew] at heq
    exact absurd heq WithTop.coe_ne_top
  · rename_i cost' heq
    rw [hew] at heq
    have hcc : cost = cost' := by
      have : ((cost : ℝ) : WithTop ℝ) = ((cost' : ℝ) : WithTop ℝ) := heq
      exact WithTop.coe_inj.mp this
    subst hcc
    simp only
    rw [if_pos himp, hh]

theorem popMin_pair (e f : Entry) (hle : entryLe e f) :
    popMin [e, f] = some (e, [f]) := by
  unfold popMin findMin
  simp only [List.foldl_cons, List.foldl_nil, if_pos hle]
  rw [List.erase_cons_head]

/-! ## The full concrete run on `Gc` -/

theorem Gc_fuel : searchFuel Gc ["s"] = 9 + 1 := rfl

theorem Gc_relax :
    relaxNbrs Gc "s" 0 (Gc.adj "s") [] (setCost (fun _ => none) "s" 0)
      ["s"] =
    some ([⟨((1 : ℝ) : WithTop ℝ), "d1", 1⟩,
           ⟨((4 : ℝ) : WithTop ℝ), "d2", 4⟩],
      setCost (setCost (setCost (fun _ => none) "s" 0) "d1" 1) "d2" 4) := by
  have hadj : Gc.adj "s" = ["d1", "d2"] := rfl
  rw [hadj]
  rw [relaxNbrs_cons_push Gc "s" "d1" 0 1 ["d2"] [] _ ["s"] 0
    (by simp) Gc_ew_s_d1
    (by
      unfold setCost
      rw [if_neg (by simp)]
      trivial)
    Gc_h_d1]
  rw [relaxNbrs_cons_push Gc "s" "d2" 0 4 [] _ _ ["s"] 0
    (by simp) Gc_ew_s_d2
    (by
      unfold setCost
      rw [if_neg (by simp), if_neg (by simp)]
      trivial)
    Gc_h_d2]
  rw [relaxNbrs_nil]
  norm_num

theorem Gc_run :
    a_star_search Gc ["s"] = some [("d1", 1), ("d2", 4)] := by
  have hseed : seedQueue Gc ["s"] [] (fun _ => none) =
      some ([⟨((1 : ℝ) : WithTop ℝ), "s", 0⟩],
        setCost (fun _ => none) "s" 0) := by
    unfold seedQueue
    rw [Gc_h_s]
    unfold seedQueue
    rfl
  have hle12 : entryLe ⟨((1 : ℝ) : WithTop ℝ), "d1", 1⟩
      ⟨((4 : ℝ) : WithTop ℝ), "d2", 4⟩ := by
    refine Or.inl ?_
    show ((1 : ℝ) : WithTop ℝ) < ((4 : ℝ) : WithTop ℝ)
    rw [WithTop.coe_lt_coe]
    norm_num
  have hloop : aStarLoop Gc (9 + 1) [⟨((1 : ℝ) : WithTop ℝ), "s", 0⟩]
      (setCost (fun _ => none) "s" 0) [] =
      some (setCost (setCost (setCost (setCost (setCost (fun _ => none)
        "s" 0) "d1" 1) "d2" 4) "d1" 1) "d2" 4) := by
    rw [aStarLoop_expand Gc 9 _ []
      [⟨((1 : ℝ) : WithTop ℝ), "d1", 1⟩, ⟨((4 : ℝ) : WithTop ℝ), "d2", 4⟩]
      _ (setCost (setCost (setCost (fun _ => none) "s" 0) "d1" 1) "d2" 4)
      [] ⟨((1 : ℝ) : WithTop ℝ), "s", 0⟩ (popMin_single _) (by simp)
      (by simp [Gc]) (by simp [Gc]) Gc_relax]
    have h9 : (9 : Nat) = 8 + 1 := rfl
    rw [h9, aStarLoop_disease Gc 8 _ [⟨((4 : ℝ) : WithTop ℝ), "d2", 4⟩]
      _ ["s"] ⟨((1 : ℝ) : WithTop ℝ), "d1", 1⟩ (popMin_pair _ _ hle12)
      (by simp) (by simp [Gc]) (by simp [Gc])]
    have h8 : (8 : Nat) = 7 + 1 := rfl
    rw [h8, aStarLoop_disease Gc 7 _ [] _ ["d1", "s"]
      ⟨((4 : ℝ) : WithTop ℝ), "d2", 4⟩ (popMin_single _)
      (by simp) (by simp [Gc]) (by simp [Gc])]
    exact aStarLoop_empty Gc 7 _ _
  have hscores : diseaseScores Gc (setCost (setCost (setCost (setCost
      (setCost (fun _ => none) "s" 0) "d1" 1) "d2" 4) "d1" 1) "d2" 4) =
      [("d1", 1), ("d2", 4)] := by
    unfold diseaseScores setCost
    have hn : Gc.nodes = ["s", "d1", "s2", "d2"] := rfl
    rw [hn]
    simp [Gc]
  unfold a_star_search
  rw [hseed]
  dsimp only
  rw [Gc_fuel, hloop]
  dsimp only
  rw [hscores]
  have hsorted : List.Pairwise
      (fun a b : Node × ℝ => (decide (a.2 ≤ b.2)) = true)
      [("d1", (1 : ℝ)), ("d2", 4)] := by
    refine List.Pairwise.cons ?_
      (List.Pairwise.cons (by simp) List.Pairwise.nil)
    intro b hb
    obtain rfl := List.mem_singleton.mp hb
    simp only [decide_eq_true_eq]
    norm_num
  rw [List.mergeSort_of_sorted hsorted]

theorem Gc_w_d1_s : Gc.weight "d1" "s" = some (Real.exp (-1)) := by
  simp [Gc]

theorem Gc_w_s2_d1 : Gc.weight "s2" "d1" = some (Real.exp (-1)) := by
  simp [Gc]

theorem Gc_w_d2_s2 : Gc.weight "d2" "s2" = some (Real.exp (-1)) := by
  simp [Gc]

theorem Gc_w_d2_s : Gc.weight "d2" "s" = some (Real.exp (-4)) := by
  simp [Gc]

theorem exp_w_ok (q : ℝ) (hq : 0 ≤ q) :
    0 < Real.exp (-q) ∧ Real.exp (-q) ≤ 1 := by
  refine ⟨Real.exp_pos _, ?_⟩
  calc Real.exp (-q) ≤ Real.exp 0 := Real.exp_le_exp.mpr (by linarith)
    _ = 1 := Real.exp_zero

theorem Gc_adj_cases (u v : Node) (hv : v ∈ Gc.adj u) :
    (u = "s" ∧ (v = "d1" ∨ v = "d2")) ∨
    (u = "d1" ∧ (v = "s" ∨ v = "s2")) ∨
    (u = "s2" ∧ (v = "d1" ∨ v = "d2")) ∨
    (u = "d2" ∧ (v = "s" ∨ v = "s2")) := by
  have hadj : Gc.adj u = if u = "s" then ["d1", "d2"]
      else if u = "d1" then ["s", "s2"]
      else if u = "s2" then ["d1", "d2"]
      else if u = "d2" then ["s", "s2"] else [] := rfl
  rw [hadj] at hv
  split_ifs at hv with h1 h2 h3 h4
  · exact Or.inl ⟨h1, by simpa using hv⟩
  · exact Or.inr (Or.inl ⟨h2, by simpa using hv⟩)
  · exact Or.inr (Or.inr (Or.inl ⟨h3, by simpa using hv⟩))
  · exact Or.inr (Or.inr (Or.inr ⟨h4, by simpa using hv⟩))
  · simp at hv

theorem Gc_weightsOK : WeightsOK Gc := by
  intro u v hv
  rcases Gc_adj_cases u v hv with ⟨rfl, rfl | rfl⟩ | ⟨rfl, rfl | rfl⟩ |
    ⟨rfl, rfl | rfl⟩ | ⟨rfl, rfl | rfl⟩
  · exact ⟨_, Gc_w_s_d1, exp_w_ok 1 (by norm_num)⟩
  · exact ⟨_, Gc_w_s_d2, exp_w_ok 4 (by norm_num)⟩
  · exact ⟨_, Gc_w_d1_s, exp_w_ok 1 (by norm_num)⟩
  · exact ⟨_, Gc_w_d1_s2, exp_w_ok 1 (by norm_num)⟩
  · exact ⟨_, Gc_w_s2_d1, exp_w_ok 1 (by norm_num)⟩
  · exact ⟨_, Gc_w_s2_d2, exp_w_ok 1 (by norm_num)⟩
  · exact ⟨_, Gc_w_d2_s, exp_w_ok 4 (by norm_num)⟩
  · exact ⟨_, Gc_w_d2_s2, exp_w_ok 1 (by norm_num)⟩

theorem Gc_adjClosed : AdjClosed Gc := by
  intro u v hv
  rcases Gc_adj_cases u v hv with ⟨-, rfl | rfl⟩ | ⟨-, rfl | rfl⟩ |
    ⟨-, rfl | rfl⟩ | ⟨-, rfl | rfl⟩ <;> simp [Gc]

/-- The disease-through path `s — d1 — s2 — d2` of cost `3`. -/
theorem Gc_cheap_path :
    IsSeedPath Gc ["s"] ["s", "d1", "s2", "d2"] "d2" ∧
      pathCost Gc ["s", "d1", "s2", "d2"] = 3 := by
  have hs1 : finStep Gc "s" "d1" := by
    refine ⟨by simp [Gc], ?_⟩
    rw [(exp_weight_cost Gc_w_s_d1).1]
    exact WithTop.coe_ne_top
  have hs2 : finStep Gc "d1" "s2" := by
    refine ⟨by simp [Gc], ?_⟩
    rw [(exp_weight_cost Gc_w_d1_s2).1]
    exact WithTop.coe_ne_top
  have hs3 : finStep Gc "s2" "d2" := by
    refine ⟨by simp [Gc], ?_⟩
    rw [(exp_weight_cost Gc_w_s2_d2).1]
    exact WithTop.coe_ne_top
  refine ⟨⟨?_, ⟨"s", by simp, rfl⟩, rfl⟩, ?_⟩
  · exact List.chain'_cons.mpr ⟨hs1, List.chain'_cons.mpr ⟨hs2,
      List.chain'_cons.mpr ⟨hs3, List.chain'_singleton _⟩⟩⟩
  · rw [pathCost_cons_cons, pathCost_cons_cons, pathCost_cons_cons,
      pathCost_single, Gc_rc_s_d1, Gc_rc_d1_s2, Gc_rc_s2_d2]
    norm_num

/-- C1's counterexample: on `Gc` (all weights in `(0,1]`, a closed
undirected networkx-style graph) with the single seed `s`, the engine
reports the disease `d2` with cost `4`, yet the finite-cost path
`s — d1 — s2 — d2` from the seed to `d2` has cost sum `3 < 4`: the
reported cost is **not** the minimum over all paths in the graph, because
the search stops relaxing outward at the disease `d1`. -/
theorem C1_counterexample :
    WeightsOK Gc ∧ AdjClosed Gc ∧ (["s"] : List Node) ≠ [] ∧
      (∀ s ∈ (["s"] : List Node), s ∈ Gc.nodes) ∧
      a_star_search Gc ["s"] = some [("d1", 1), ("d2", 4)] ∧
      ("d2", (4 : ℝ)) ∈ [("d1", (1 : ℝ)), ("d2", 4)] ∧
      IsSeedPath Gc ["s"] ["s", "d1", "s2", "d2"] "d2" ∧
      pathCost Gc ["s", "d1", "s2", "d2"] = 3 ∧
      ¬ ((4 : ℝ) ≤ 3) :=
  ⟨Gc_weightsOK, Gc_adjClosed, by simp,
    fun s hs => by
      obtain rfl : s = "s" := by simpa using hs
      simp [Gc],
    Gc_run, by simp, Gc_cheap_path.1, Gc_cheap_path.2, by norm_num⟩

/-- The amended C1's witness: the amended minimality statement holds on
`Gc` (the amended minimum is over disease-free paths: for `d2` the direct
edge of cost `4` is optimal among those). -/
theorem C1_witness :
    WeightsOK Gc ∧ AdjClosed Gc ∧ (["s"] : List Node) ≠ [] ∧
      (∀ s ∈ (["s"] : List Node), s ∈ Gc.nodes) ∧
      a_star_search Gc ["s"] = some [("d1", 1), ("d2", 4)] ∧
      (∀ d c, (d, c) ∈ [("d1", (1 : ℝ)), ("d2", 4)] →
        (∃ p, IsSinkPath Gc ["s"] p d ∧ pathCost Gc p = c) ∧
        ∀ p, IsSinkPath Gc ["s"] p d → c ≤ pathCost Gc p) := by
  have hseeds : ∀ s ∈ (["s"] : List Node), s ∈ Gc.nodes := fun s hs => by
    obtain rfl : s = "s" := by simpa using hs
    simp [Gc]
  exact ⟨Gc_weightsOK, Gc_adjClosed, by simp, hseeds, Gc_run,
    C1_sink_path_minimality Gc ["s"] [("d1", 1), ("d2", 4)] Gc_weightsOK
      Gc_adjClosed (by simp) hseeds Gc_run⟩

end Diagnosis
